import Mathlib

/-!
# Proxy lab (`src/proxy_lab/proxy.cpp`): line reader, request patcher, relay, worker count

A shallow embedding of the proxy's sequential logic.  Byte strings (`std::string`,
`std::vector<char>`) are lists of characters.  A connection is modelled by its two
directions: the read direction is the list of results that the successive
`async_read_some` calls produce, the write direction is the list of outcomes of the
successive `async_write` calls together with the bytes that reached the peer.
Exceptions are returned as values, and output parameters are returned with the
result.  The scheduler, the acceptor and the worker loop are not part of the model.
-/

set_option autoImplicit false

namespace ProxyLab

/-! ## Byte strings and the `std::string` operations that the proxy uses -/

/-- A byte string. -/
abbrev Bytes := List Char

/-- The constant `BUFF_SIZE = 1 << 20` (line 37): capacity of the scratch buffers. -/
def BUFF_SIZE : Nat := 1 <<< 20

/-- Index of the first occurrence of `c` in `s`, `none` for `npos`. -/
def find_first (c : Char) : Bytes → Option Nat
  | [] => none
  | x :: xs => if x = c then some 0 else (find_first c xs).map (· + 1)

/-- The call `s.find(c, pos)`: the first index `i ≥ pos` with `s[i] = c`, `none` for `npos`. -/
def find_char (s : Bytes) (c : Char) (pos : Nat) : Option Nat :=
  (find_first c (s.drop pos)).map (· + pos)

/-- Index of the first position of `s` at which `pat` occurs, `none` for `npos`. -/
def find_sub (pat : Bytes) : Bytes → Option Nat
  | [] => if pat = [] then some 0 else none
  | x :: xs => if pat.isPrefixOf (x :: xs) then some 0 else (find_sub pat xs).map (· + 1)

/-- The call `s.find(pat, pos)` with a string pattern. -/
def find_str (s pat : Bytes) (pos : Nat) : Option Nat :=
  if pos ≤ s.length then (find_sub pat (s.drop pos)).map (· + pos) else none

/-- The call `s.substr(pos, n)`; `n = none` stands for `npos` (to the end).  Every call
in the proxy has `pos` within the string, so `std::out_of_range` is never raised. -/
def substr (s : Bytes) (pos : Nat) (n : Option Nat) : Bytes :=
  match n with
  | none => s.drop pos
  | some k => (s.drop pos).take k

/-- The call `s.erase(0, n)`. -/
def erase_front (s : Bytes) (n : Nat) : Bytes := s.drop n

/-! ## Connections -/

/-- What one `async_read_some` call produces: the bytes read, the `eof` error code, or
a failure with any other error code. -/
inductive ReadResult where
  | data (bytes : Bytes)
  | eof
  | error
  deriving DecidableEq, Repr

/-- The read direction of a socket: the results of the successive `async_read_some`
calls; once the list is used up the peer has closed and every read reports `eof`. -/
abbrev ReadEnd := List ReadResult

/-- The write direction of a socket: the bytes that reached the peer so far, and the
outcomes of the successive `async_write` calls (`none`: the whole buffer is written,
`some k`: a `system_error` with a code other than `eof` is raised after `k` bytes;
past the end every write completes). -/
structure WriteEnd where
  sent : Bytes
  outcomes : List (Option Nat)
  deriving DecidableEq, Repr

/-- One `boost::asio::async_write` call: `true` when it completes, `false` when it
raises a `system_error`. -/
def async_write (w : WriteEnd) (bytes : Bytes) : Bool × WriteEnd :=
  match w.outcomes with
  | [] => (true, ⟨w.sent ++ bytes, []⟩)
  | none :: os => (true, ⟨w.sent ++ bytes, os⟩)
  | some k :: os => (false, ⟨w.sent ++ bytes.take k, os⟩)

/-- The exceptions that leave the functions of the proxy. -/
inductive Exn where
  | system_error
  | client_header_error
  deriving DecidableEq, Repr

deriving instance DecidableEq for Except

/-! ## The line reader (class `line_parser` of the source, lines 98-143) -/

/-- State of a `line_parser` object of the source: the socket it reads from and
`buffered_data`.  The scratch vector `vec` of `BUFF_SIZE` bytes only carries the bytes
of one read into `buffered_data`. -/
structure LineParser where
  sock : ReadEnd
  buffered_data : Bytes
  deriving DecidableEq, Repr

/-- The `while (true)` loop of `next_line` (lines 109-141), entered with the current
value of `pos` (`none` for `npos`).  Each pass that does not return at once issues one
`async_read_some`, whose result is the head of the read direction: on `eof` (also when
the list is used up) the backlog is returned and cleared, on another error the backlog
is cleared and the exception goes on, on data the bytes are appended and searched
from the old length on. -/
def next_line_loop : ReadEnd → Bytes → Option Nat → Except Exn Bytes × LineParser
  | sock, buffered_data, some pos =>
      (.ok (substr buffered_data 0 (some (pos + 1))), ⟨sock, erase_front buffered_data (pos + 1)⟩)
  | [], buffered_data, none => (.ok buffered_data, ⟨[], []⟩)
  | .eof :: sock, buffered_data, none => (.ok buffered_data, ⟨sock, []⟩)
  | .error :: sock, _, none => (.error .system_error, ⟨sock, []⟩)
  | .data bytes :: sock, buffered_data, none =>
      next_line_loop sock (buffered_data ++ bytes)
        (find_char (buffered_data ++ bytes) '\n' buffered_data.length)

/-- The method `next_line` of the line parser (lines 106-142). -/
def next_line (p : LineParser) : Except Exn Bytes × LineParser :=
  next_line_loop p.sock p.buffered_data (find_char p.buffered_data '\n' 0)

/-! ## The request patcher (`patch_request`, lines 203-265) -/

/-- The loop `for (; pos < len; ++pos) if (first_line[pos] != ' ') break;` (lines
218-220), run on the characters from `pos` on; the result is the final `pos`. -/
def skip_spaces_loop : Bytes → Nat → Nat
  | [], pos => pos
  | c :: cs, pos => if c ≠ ' ' then pos else skip_spaces_loop cs (pos + 1)

/-- The final value of `pos` after the loop of lines 218-220. -/
def skip_spaces (first_line : Bytes) (pos : Nat) : Nat :=
  skip_spaces_loop (first_line.drop pos) pos

/-- Lines 228-237: from the `url` token compute the new values of `host` and `url`
(the path).  The result is `(host, url)`. -/
def split_url (url : Bytes) : Bytes × Bytes :=
  let pos := match find_str url "//".toList 0 with
    | some p => p + 2
    | none => 0
  match find_char url '/' pos with
  | none => (url, "/".toList)
  | some next_pos => (substr url pos (some (next_pos - pos)), substr url next_pos none)

/-- The first block of `patch_request` (lines 207-239) applied to the line that
`next_line` returned: the exception thrown, or the new `(patched_req, host)`. -/
def parse_request_line (first_line : Bytes) : Except Exn (Bytes × Bytes) :=
  let len := first_line.length
  match find_char first_line ' ' 0 with
  | none => .error .client_header_error
  | some pos =>
    let method := substr first_line 0 (some pos)
    let pos := pos + 1
    if method ≠ "GET".toList then .error .client_header_error
    else
      let pos := skip_spaces first_line pos
      if pos ≥ len then .error .client_header_error
      else
        match find_char first_line ' ' pos with
        | none => .error .client_header_error
        | some next_pos =>
          let url := substr first_line pos (some (next_pos - pos))
          let (host, url) := split_url url
          .ok (method ++ " ".toList ++ url ++ " HTTP/1.0\r\n".toList, host)

/-- The variables that `patch_request` works on: the parser and the two output
parameters. -/
structure patch_state where
  parser : LineParser
  patched_req : Bytes
  host : Bytes
  deriving DecidableEq, Repr

/-- The `while (true)` loop of `patch_request` (lines 242-264), run for at most `fuel`
passes.  The result is the exception that left the loop (`none` for a normal exit)
with the final parser and `patched_req`; the outer `none` means that the passes ran
out. -/
def header_loop : Nat → LineParser → Bytes → Option (Option Exn × LineParser × Bytes)
  | 0, _, _ => none
  | fuel + 1, parser, patched_req =>
    match next_line parser with
    | (.error e, parser) => some (some e, parser, patched_req)
    | (.ok line, parser) =>
      if line.length = 0 then some (none, parser, patched_req)
      else if line = "\r\n".toList then some (none, parser, patched_req ++ line)
      else if find_str line "Connection".toList 0 = some 0 then
        header_loop fuel parser (patched_req ++ "Connection: close\r\n".toList)
      else if find_str line "Proxy-Connection".toList 0 = some 0 then
        header_loop fuel parser (patched_req ++ "Proxy-Connection: close\r\n".toList)
      else header_loop fuel parser (patched_req ++ line)

/-- Number of bytes that a parser can still deliver: its backlog plus the bytes of
all future reads. -/
def pending_reads : ReadEnd → Nat
  | [] => 0
  | .data bytes :: sock => bytes.length + pending_reads sock
  | _ :: sock => pending_reads sock

/-- Number of bytes that a parser can still deliver. -/
def pending (p : LineParser) : Nat := p.buffered_data.length + pending_reads p.sock

/-- The function `patch_request` (lines 203-265), called with the current values of
the output parameters.  The result is the exception thrown (`none` for a normal
return) and the final state.  Every pass of the header loop that goes on has consumed
a line of at least one byte, so `pending + 1` passes always suffice (see
`header_loop_total`); the outer `none` is never produced. -/
def patch_request (parser : LineParser) (patched_req host : Bytes) :
    Option (Option Exn × patch_state) :=
  match next_line parser with
  | (.error e, parser) => some (some e, ⟨parser, patched_req, host⟩)
  | (.ok first_line, parser) =>
    match parse_request_line first_line with
    | .error e => some (some e, ⟨parser, patched_req, host⟩)
    | .ok (patched_req, host) =>
      match header_loop (pending parser + 1) parser patched_req with
      | none => none
      | some (thrown, parser, patched_req) => some (thrown, ⟨parser, patched_req, host⟩)

/-! ## The relay (`relay_back_to_client`, lines 270-294) -/

/-- The I/O operations that the relay issues, in the order in which it issues them. -/
inductive RelayOp where
  | read
  | write (bytes : Bytes)
  deriving DecidableEq, Repr

/-- The function `relay_back_to_client`: the exception thrown (`none` for a normal
return), what is left of the server's read direction, the client's write direction,
and the operations issued.  A `system_error` with code `eof` ends the relay normally,
one with another code goes on to the caller. -/
def relay_back_to_client : ReadEnd → WriteEnd → Option Exn × ReadEnd × WriteEnd × List RelayOp
  | [], client => (none, [], client, [.read])
  | .eof :: server, client => (none, server, client, [.read])
  | .error :: server, client => (some .system_error, server, client, [.read])
  | .data bytes :: server, client =>
    match async_write client bytes with
    | (false, client) => (some .system_error, server, client, [.read, .write bytes])
    | (true, client) =>
      match relay_back_to_client server client with
      | (thrown, server, client, ops) => (thrown, server, client, .read :: .write bytes :: ops)

/-! ## The session (`proxy_routine`, lines 299-344) -/

/-- The upstream side of one session: whether `async_resolve` and `async_connect`
succeed for a host, and the two directions of the connection to the server. -/
structure Upstream where
  resolve : Bytes → Bool
  connect : Bytes → Bool
  server_in : ReadEnd
  server_out : WriteEnd

/-- Which `catch` clause of `proxy_routine` wrote the diagnostic. -/
inductive Diagnostic where
  | boost_error (host : Bytes)
  | header_error
  deriving DecidableEq, Repr

/-- What one session did: the diagnostic written (if any) and the final write
directions of the upstream connection and of the client connection. -/
structure session_result where
  diagnostic : Option Diagnostic
  upstream : WriteEnd
  client : WriteEnd
  deriving DecidableEq, Repr

/-- The function `proxy_routine` for a client connection with read direction
`client_in` and write direction `client_out`.  The outer `none` is that of
`patch_request`. -/
def proxy_routine (client_in : ReadEnd) (client_out : WriteEnd) (up : Upstream) :
    Option session_result :=
  match patch_request ⟨client_in, []⟩ [] [] with
  | none => none
  | some (some .client_header_error, _) => some ⟨some .header_error, up.server_out, client_out⟩
  | some (some .system_error, st) => some ⟨some (.boost_error st.host), up.server_out, client_out⟩
  | some (none, st) =>
    if up.resolve st.host = false then
      some ⟨some (.boost_error st.host), up.server_out, client_out⟩
    else if up.connect st.host = false then
      some ⟨some (.boost_error st.host), up.server_out, client_out⟩
    else
      match async_write up.server_out st.patched_req with
      | (false, server_out) => some ⟨some (.boost_error st.host), server_out, client_out⟩
      | (true, server_out) =>
        match relay_back_to_client up.server_in client_out with
        | (some _, _, client, _) => some ⟨some (.boost_error st.host), server_out, client⟩
        | (none, _, client, _) => some ⟨none, server_out, client⟩

/-! ## The worker count (`main`, lines 392-403, and `create_threadpool`) -/

/-- The value of type `int` (32 bits) that an integer result is stored as.  Signed
overflow is undefined in C++; the wrap-around of two's complement is taken for it. -/
def wrap_int (x : Int) : Int := (x + 2 ^ 31) % 2 ^ 32 - 2 ^ 31

/-- Lines 393-399 of `main`: the value of `thread_num` passed to `create_threadpool`,
for `argc` and the value `n` that `std::atoi(argv[2])` returns. -/
def thread_num (argc : Nat) (n : Int) : Int :=
  if argc = 3 then min 256 (max 0 (wrap_int (n - 1))) else 0

/-- The function `create_threadpool` (lines 175-180): the thread numbers of the
workers it starts. -/
def create_threadpool (pool_size : Nat) : List Nat :=
  (List.range pool_size).map (· + 1)

/-- The function `main` from the argument check on (lines 371-403): `none` when the
usage message is printed, else the thread numbers of the workers started, those of
the pool first and then the main worker `worker(0)`. -/
def main_workers (argc : Nat) (n : Int) : Option (List Nat) :=
  if argc < 2 ∨ argc > 3 then none
  else some (create_threadpool (thread_num argc n).toNat ++ [0])

/-! ## Notions used to state the properties -/

/-- The results of `n` successive `next_line` calls and the parser they leave. -/
def next_lines : Nat → LineParser → List (Except Exn Bytes) × LineParser
  | 0, p => ([], p)
  | n + 1, p =>
    match next_line p with
    | (r, p) =>
      match next_lines n p with
      | (rs, p) => (r :: rs, p)

/-- The split of a byte stream after each line feed: the complete lines, each with
its line feed, and the bytes after the last line feed. -/
def split_lines : Bytes → List Bytes × Bytes
  | [] => ([], [])
  | c :: s =>
    if c = '\n' then (['\n'] :: (split_lines s).1, (split_lines s).2)
    else
      match split_lines s with
      | ([], t) => ([], c :: t)
      | (l :: ls, t) => ((c :: l) :: ls, t)

/-- A complete line: bytes without a line feed, followed by one line feed. -/
def complete_line (l : Bytes) : Prop := ∃ b : Bytes, l = b ++ ['\n'] ∧ '\n' ∉ b

/-- The header rewriting of the specification: a line that starts with `Connection`
becomes `Connection: close`, one that starts with `Proxy-Connection` becomes
`Proxy-Connection: close`, every other line is kept. -/
def rewrite_header (h : Bytes) : Bytes :=
  if "Connection".toList <+: h then "Connection: close\r\n".toList
  else if "Proxy-Connection".toList <+: h then "Proxy-Connection: close\r\n".toList
  else h

/-- The part of a url behind its first double slash, `none` when it has none. -/
def behind_double_slash : Bytes → Option Bytes
  | [] => none
  | [_] => none
  | a :: b :: rest =>
    if a = '/' ∧ b = '/' then some rest else behind_double_slash (b :: rest)

/-- The part of a byte string from its first slash on, `/` when it has no slash. -/
def from_first_slash : Bytes → Bytes
  | [] => ['/']
  | c :: rest => if c = '/' then c :: rest else from_first_slash rest

/-- The path part of a url token in the words of the specification: the scheme up to
and with the first double slash is taken off, if there is one, and of the remainder
the part from the first slash on is the path, `/` when the remainder has no slash. -/
def url_path (url : Bytes) : Bytes :=
  match behind_double_slash url with
  | some remainder => from_first_slash remainder
  | none => from_first_slash url

/-- The integer `n` clamped to the interval from `lo` to `hi`. -/
def clamp (lo hi n : Int) : Int := max lo (min hi n)

/-- The request lines that the specification rejects: no space at all, a method
(the text before the first space) other than `GET`, nothing but spaces after the
method, or a url token with no space after it. -/
def malformed_request_line (line : Bytes) : Prop :=
  ' ' ∉ line ∨
  (∃ m r : Bytes, line = m ++ ' ' :: r ∧ ' ' ∉ m ∧ m ≠ "GET".toList) ∨
  (∃ k : Nat, line = "GET ".toList ++ List.replicate k ' ') ∨
  (∃ (k : Nat) (u : Bytes), line = "GET ".toList ++ List.replicate k ' ' ++ u ∧ u ≠ [] ∧ ' ' ∉ u)

/-! ## Searching in byte strings -/

theorem find_first_eq_none {c : Char} {s : Bytes} : find_first c s = none ↔ c ∉ s := by
  induction s with
  | nil => simp [find_first]
  | cons x xs ih =>
    by_cases h : x = c
    · simp [find_first, h]
    · simp [find_first, h, ih, Ne.symm h]

theorem find_first_append {c : Char} (l b : Bytes) (h : c ∉ l) :
    find_first c (l ++ c :: b) = some l.length := by
  induction l with
  | nil => simp [find_first]
  | cons x xs ih =>
    have hx : x ≠ c := fun e => h (by simp [e])
    have hxs : c ∉ xs := fun e => h (by simp [e])
    simp [find_first, hx, ih hxs]

theorem find_char_eq_none {c : Char} {s : Bytes} {pos : Nat} :
    find_char s c pos = none ↔ c ∉ s.drop pos := by
  simp [find_char, find_first_eq_none]

theorem find_char_zero (c : Char) (s : Bytes) : find_char s c 0 = find_first c s := by
  simp [find_char]

theorem find_char_append {c : Char} (l b : Bytes) (pos : Nat) (h : c ∉ l)
    (hpos : pos ≤ l.length) : find_char (l ++ c :: b) c pos = some l.length := by
  have h1 : (l ++ c :: b).drop pos = l.drop pos ++ c :: b := by
    rw [List.drop_append_of_le_length hpos]
  have h2 : c ∉ l.drop pos := fun e => h (List.mem_of_mem_drop e)
  rw [find_char, h1, find_first_append _ _ h2]
  simp
  omega

/-- A byte string with a line feed in it starts with a complete line. -/
theorem exists_first_line {c : Char} {s : Bytes} (h : c ∈ s) :
    ∃ l b, s = l ++ c :: b ∧ c ∉ l := by
  induction s with
  | nil => simp at h
  | cons x xs ih =>
    by_cases hx : x = c
    · exact ⟨[], xs, by simp [hx], by simp⟩
    · have : c ∈ xs := by
        rcases List.mem_cons.1 h with e | e
        · exact absurd e.symm hx
        · exact e
      obtain ⟨l, b, e, hl⟩ := ih this
      refine ⟨x :: l, b, by simp [e], ?_⟩
      simp [hl, Ne.symm hx]

/-- The first line feed of a byte string is in one place only. -/
theorem first_line_unique {c : Char} {l l' b b' : Bytes} (e : l ++ c :: b = l' ++ c :: b')
    (hl : c ∉ l) (hl' : c ∉ l') : l = l' ∧ b = b' := by
  induction l generalizing l' with
  | nil =>
    cases l' with
    | nil => simpa using e
    | cons y ys =>
      simp at e
      exact absurd (by simp [e.1]) hl'
  | cons x xs ih =>
    cases l' with
    | nil =>
      simp at e
      exact absurd (by simp [e.1]) hl
    | cons y ys =>
      simp at e
      have hxs : c ∉ xs := fun m => hl (by simp [m])
      have hys : c ∉ ys := fun m => hl' (by simp [m])
      obtain ⟨e1, e2⟩ := ih e.2 hxs hys
      exact ⟨by simp [e.1, e1], e2⟩

/-- When `u ++ v` starts with the line `l` and `u` has a line feed, the line is in `u`. -/
theorem line_within {c : Char} {u v l s : Bytes} (e : u ++ v = l ++ c :: s) (hl : c ∉ l)
    (hu : c ∈ u) : ∃ b, u = l ++ c :: b ∧ s = b ++ v := by
  obtain ⟨l', b, eu, hl'⟩ := exists_first_line hu
  subst eu
  have e' : l' ++ c :: (b ++ v) = l ++ c :: s := by simpa using e
  obtain ⟨e1, e2⟩ := first_line_unique e' hl' hl
  exact ⟨b, by rw [e1], e2.symm⟩

/-! ## The line reader delivers the lines of the stream -/

/-- One pass of the loop of `next_line` that reads a chunk. -/
theorem next_line_loop_data (c : Bytes) (sock : ReadEnd) (buf : Bytes) :
    next_line_loop (.data c :: sock) buf none
      = next_line_loop sock (buf ++ c) (find_char (buf ++ c) '\n' buf.length) := rfl

/-- The backlog holds a complete line: `next_line` returns it without any read. -/
theorem next_line_buffered (sock : ReadEnd) (l b : Bytes) (hl : '\n' ∉ l) :
    next_line ⟨sock, l ++ '\n' :: b⟩ = (.ok (l ++ ['\n']), ⟨sock, b⟩) := by
  have hf : find_char (l ++ '\n' :: b) '\n' 0 = some l.length :=
    find_char_append l b 0 hl (Nat.zero_le _)
  simp only [next_line, hf, next_line_loop, substr, erase_front, List.drop_zero]
  have h1 : (l ++ '\n' :: b).take (l.length + 1) = l ++ ['\n'] := by
    have : l ++ '\n' :: b = (l ++ ['\n']) ++ b := by simp
    rw [this, List.take_left' (by simp)]
  have h2 : (l ++ '\n' :: b).drop (l.length + 1) = b := by
    have : l ++ '\n' :: b = (l ++ ['\n']) ++ b := by simp
    rw [this, List.drop_left' (by simp)]
  rw [h1, h2]

/-- The loop of `next_line`, entered with a backlog without line feed, reads chunks
until the first line feed has arrived and returns the line up to it. -/
theorem next_line_loop_line (rest : ReadEnd) (l s : Bytes) (hl : '\n' ∉ l) :
    ∀ (cs : List Bytes) (buf : Bytes), '\n' ∉ buf → buf ++ cs.flatten = l ++ '\n' :: s →
      ∃ cs1 cs2 b, cs = cs1 ++ cs2 ∧
        next_line_loop (cs.map .data ++ rest) buf none
          = (.ok (l ++ ['\n']), ⟨cs2.map .data ++ rest, b⟩) ∧
        buf ++ cs1.flatten = l ++ '\n' :: b ∧ b ++ cs2.flatten = s := by
  intro cs
  induction cs with
  | nil =>
    intro buf hbuf e
    exfalso
    apply hbuf
    simp at e
    simp [e]
  | cons c cs ih =>
    intro buf hbuf e
    have e' : (buf ++ c) ++ cs.flatten = l ++ '\n' :: s := by simpa using e
    by_cases hc : '\n' ∈ buf ++ c
    · obtain ⟨b, e1, e2⟩ := line_within e' hl hc
      have hle : buf.length ≤ l.length := by
        rcases List.append_eq_append_iff.1 e1 with ⟨a, ea, _⟩ | ⟨a, ea, ea2⟩
        · simp [ea]
        · cases a with
          | nil => simp [ea]
          | cons x xs =>
            simp at ea2
            exact absurd (by rw [ea, ← ea2.1]; simp) hbuf
      have hf : find_char (buf ++ c) '\n' buf.length = some l.length := by
        rw [e1]; exact find_char_append l b _ hl hle
      refine ⟨[c], cs, b, rfl, ?_, by simpa using e1, e2.symm⟩
      rw [List.map_cons, List.cons_append, next_line_loop_data, hf]
      simp only [next_line_loop, substr, erase_front, List.drop_zero]
      rw [e1]
      have h1 : (l ++ '\n' :: b).take (l.length + 1) = l ++ ['\n'] := by
        have : l ++ '\n' :: b = (l ++ ['\n']) ++ b := by simp
        rw [this, List.take_left' (by simp)]
      have h2 : (l ++ '\n' :: b).drop (l.length + 1) = b := by
        have : l ++ '\n' :: b = (l ++ ['\n']) ++ b := by simp
        rw [this, List.drop_left' (by simp)]
      rw [h1, h2]
    · have hf : find_char (buf ++ c) '\n' buf.length = none :=
        find_char_eq_none.2 (fun m => hc (List.mem_of_mem_drop m))
      obtain ⟨cs1, cs2, b, ecs, hrun, hb1, hb2⟩ := ih (buf ++ c) hc e'
      refine ⟨c :: cs1, cs2, b, by simp [ecs], ?_, by simpa using hb1, hb2⟩
      rw [List.map_cons, List.cons_append, next_line_loop_data, hf]
      exact hrun

/-- The bytes that the backlog and the chunks `cs` hold start with a complete line:
`next_line` returns that line, after reading a first part `cs1` of the chunks. -/
theorem next_line_line (rest : ReadEnd) (l s : Bytes) (hl : '\n' ∉ l) (cs : List Bytes)
    (buf : Bytes) (e : buf ++ cs.flatten = l ++ '\n' :: s) :
    ∃ cs1 cs2 b, cs = cs1 ++ cs2 ∧
      next_line ⟨cs.map .data ++ rest, buf⟩ = (.ok (l ++ ['\n']), ⟨cs2.map .data ++ rest, b⟩) ∧
      buf ++ cs1.flatten = l ++ '\n' :: b ∧ b ++ cs2.flatten = s := by
  by_cases hb : '\n' ∈ buf
  · obtain ⟨b, e1, e2⟩ := line_within e hl hb
    refine ⟨[], cs, b, rfl, ?_, by simpa using e1, e2.symm⟩
    rw [e1]
    exact next_line_buffered _ l b hl
  · have hf : find_char buf '\n' 0 = none := by
      rw [find_char_zero]; exact find_first_eq_none.2 hb
    obtain ⟨cs1, cs2, b, h⟩ := next_line_loop_line rest l s hl cs buf hb e
    refine ⟨cs1, cs2, b, ?_⟩
    simpa only [next_line, hf] using h

/-- The loop of `next_line` on a stream that ends without a further line feed: all
chunks are read and the whole backlog is returned. -/
theorem next_line_loop_tail (n : Nat) :
    ∀ (cs : List Bytes) (buf : Bytes), '\n' ∉ buf ++ cs.flatten →
      next_line_loop (cs.map .data ++ List.replicate n .eof) buf none
        = (.ok (buf ++ cs.flatten), ⟨List.replicate (n - 1) .eof, []⟩) := by
  intro cs
  induction cs with
  | nil =>
    intro buf _
    cases n with
    | zero => simp [next_line_loop]
    | succ n => simp [next_line_loop, List.replicate_succ]
  | cons c cs ih =>
    intro buf h
    have h' : '\n' ∉ (buf ++ c) ++ cs.flatten := by simpa using h
    have hc : '\n' ∉ buf ++ c := fun m => h' (List.mem_append_left _ m)
    have hf : find_char (buf ++ c) '\n' buf.length = none :=
      find_char_eq_none.2 (fun m => hc (List.mem_of_mem_drop m))
    rw [List.map_cons, List.cons_append, next_line_loop_data, hf, ih (buf ++ c) h']
    simp

/-- On a stream that ends without a further line feed `next_line` returns all the
remaining bytes and leaves an empty backlog. -/
theorem next_line_tail (n : Nat) (cs : List Bytes) (buf : Bytes)
    (h : '\n' ∉ buf ++ cs.flatten) :
    next_line ⟨cs.map .data ++ List.replicate n .eof, buf⟩
      = (.ok (buf ++ cs.flatten), ⟨List.replicate (n - 1) .eof, []⟩) := by
  have hb : '\n' ∉ buf := fun m => h (List.mem_append_left _ m)
  have hf : find_char buf '\n' 0 = none := by
    rw [find_char_zero]; exact find_first_eq_none.2 hb
  simp only [next_line, hf]
  exact next_line_loop_tail n cs buf h

/-! ## Successive calls of `next_line` -/

theorem next_lines_succ (n : Nat) (p : LineParser) :
    next_lines (n + 1) p
      = ((next_line p).1 :: (next_lines n (next_line p).2).1, (next_lines n (next_line p).2).2) :=
  rfl

theorem next_lines_add (a b : Nat) :
    ∀ p : LineParser, next_lines (a + b) p
      = ((next_lines a p).1 ++ (next_lines b (next_lines a p).2).1,
          (next_lines b (next_lines a p).2).2) := by
  induction a with
  | zero => intro p; simp [next_lines]
  | succ a ih =>
    intro p
    rw [Nat.add_right_comm, next_lines_succ, next_lines_succ, ih]
    simp

/-- Calls of `next_line` on a stream that starts with the complete lines `ls` return
these lines; the reads made deliver a first part `cs1` of the chunks. -/
theorem next_lines_lines (rest : ReadEnd) (s : Bytes) :
    ∀ (ls : List Bytes), (∀ l ∈ ls, complete_line l) → ∀ (cs : List Bytes) (buf : Bytes),
      buf ++ cs.flatten = ls.flatten ++ s →
      ∃ cs1 cs2 b, cs = cs1 ++ cs2 ∧
        next_lines ls.length ⟨cs.map .data ++ rest, buf⟩
          = (ls.map .ok, ⟨cs2.map .data ++ rest, b⟩) ∧
        buf ++ cs1.flatten = ls.flatten ++ b ∧ b ++ cs2.flatten = s := by
  intro ls
  induction ls with
  | nil =>
    intro _ cs buf e
    exact ⟨[], cs, buf, rfl, rfl, by simp, by simpa using e⟩
  | cons l ls ih =>
    intro hls cs buf e
    obtain ⟨l0, el, hl0⟩ := hls l (by simp)
    subst el
    have e' : buf ++ cs.flatten = l0 ++ '\n' :: (ls.flatten ++ s) := by simpa using e
    obtain ⟨cs1, cs2, b, ecs, hrun, hb1, hb2⟩ := next_line_line rest l0 _ hl0 cs buf e'
    obtain ⟨cs3, cs4, b', ecs', hrun', hb1', hb2'⟩ :=
      ih (fun x hx => hls x (by simp [hx])) cs2 b hb2
    refine ⟨cs1 ++ cs3, cs4, b', by simp [ecs, ecs'], ?_, ?_, hb2'⟩
    · rw [List.length_cons, next_lines_succ, hrun]
      simp only [hrun', List.map_cons]
    · have : buf ++ (cs1 ++ cs3).flatten = (buf ++ cs1.flatten) ++ cs3.flatten := by simp
      rw [this, hb1]
      have : (l0 ++ '\n' :: b) ++ cs3.flatten = l0 ++ '\n' :: (b ++ cs3.flatten) := by simp
      rw [this, hb1']
      simp

/-- After the end of the stream every call returns the empty line. -/
theorem next_lines_ended (m : Nat) :
    ∀ n : Nat, next_lines m ⟨List.replicate n .eof, []⟩
      = (List.replicate m (.ok []), ⟨List.replicate (n - m) .eof, []⟩) := by
  induction m with
  | zero => intro n; simp [next_lines]
  | succ m ih =>
    intro n
    have h := next_line_tail n [] [] (by simp)
    simp only [List.map_nil, List.nil_append, List.flatten_nil, List.append_nil] at h
    rw [next_lines_succ, h]
    simp only [ih, List.replicate_succ]
    rw [Nat.sub_sub, Nat.add_comm 1 m]

/-! ## The split of a stream into lines -/

theorem split_lines_flatten (s : Bytes) :
    (split_lines s).1.flatten ++ (split_lines s).2 = s := by
  induction s with
  | nil => simp [split_lines]
  | cons c s ih =>
    by_cases hc : c = '\n'
    · simp [split_lines, hc, ih]
    · rcases h : split_lines s with ⟨ls, t⟩
      rw [h] at ih
      cases ls with
      | nil => simp [split_lines, hc, h] at ih ⊢; exact ih
      | cons l ls => simp [split_lines, hc, h] at ih ⊢; exact ih

theorem split_lines_rest (s : Bytes) : '\n' ∉ (split_lines s).2 := by
  induction s with
  | nil => simp [split_lines]
  | cons c s ih =>
    by_cases hc : c = '\n'
    · simpa [split_lines, hc] using ih
    · rcases h : split_lines s with ⟨ls, t⟩
      rw [h] at ih
      cases ls with
      | nil => simp [split_lines, hc, h] at ih ⊢; exact ⟨Ne.symm hc, ih⟩
      | cons l ls => simpa [split_lines, hc, h] using ih

theorem split_lines_complete (s : Bytes) : ∀ l ∈ (split_lines s).1, complete_line l := by
  induction s with
  | nil => simp [split_lines]
  | cons c s ih =>
    by_cases hc : c = '\n'
    · intro l hl
      simp [split_lines, hc] at hl
      rcases hl with e | hl
      · exact ⟨[], by simp [e], by simp⟩
      · exact ih l hl
    · rcases h : split_lines s with ⟨ls, t⟩
      rw [h] at ih
      cases ls with
      | nil => simp [split_lines, hc, h]
      | cons l0 ls =>
        intro l hl
        simp [split_lines, hc, h] at hl
        rcases hl with e | hl
        · obtain ⟨b, eb, hb⟩ := ih l0 (by simp)
          refine ⟨c :: b, by simp [e, eb], ?_⟩
          simp [hb, Ne.symm hc]
        · exact ih l (by simp [hl])

/-- A complete line ends with its line feed and has no other line feed. -/
theorem complete_line_shape {l : Bytes} (h : complete_line l) :
    l.getLast? = some '\n' ∧ l.count '\n' = 1 := by
  obtain ⟨b, e, hb⟩ := h
  subst e
  refine ⟨by simp, ?_⟩
  rw [List.count_append, List.count_eq_zero_of_not_mem hb]
  simp

/-! ## The relay -/

/-- A write on a connection on which every write succeeds. -/
theorem async_write_ok (w : WriteEnd) (bytes : Bytes) (hw : ∀ o ∈ w.outcomes, o = none) :
    async_write w bytes = (true, ⟨w.sent ++ bytes, w.outcomes.tail⟩) := by
  rcases w with ⟨sent, os⟩
  cases os with
  | nil => rfl
  | cons o os =>
    have : o = none := hw o (by simp)
    subst this
    rfl

/-- The relay loop on chunks followed by end-of-stream, all writes succeeding. -/
theorem relay_chunks (n : Nat) :
    ∀ (cs : List Bytes) (client : WriteEnd), (∀ o ∈ client.outcomes, o = none) →
      relay_back_to_client (cs.map .data ++ List.replicate n .eof) client
        = (none, List.replicate (n - 1) .eof,
            ⟨client.sent ++ cs.flatten, client.outcomes.drop cs.length⟩,
            (cs.flatMap fun c => [RelayOp.read, RelayOp.write c]) ++ [RelayOp.read]) := by
  intro cs
  induction cs with
  | nil =>
    intro client _
    cases n with
    | zero => simp [relay_back_to_client]
    | succ n => simp [relay_back_to_client, List.replicate_succ]
  | cons c cs ih =>
    intro client hw
    have hw' : ∀ o ∈ (⟨client.sent ++ c, client.outcomes.tail⟩ : WriteEnd).outcomes, o = none :=
      fun o ho => hw o (List.mem_of_mem_tail ho)
    rw [List.map_cons, List.cons_append]
    simp only [relay_back_to_client, async_write_ok _ _ hw]
    rw [ih _ hw']
    simp

/-! ## The url and the request line -/

/-- Where `find_sub` finds the pattern, the pattern occurs. -/
theorem find_sub_some {pat : Bytes} :
    ∀ {s : Bytes} {i : Nat}, find_sub pat s = some i → pat <+: s.drop i := by
  intro s
  induction s with
  | nil =>
    intro i h
    by_cases hp : pat = []
    · simp [hp]
    · simp [find_sub, hp] at h
  | cons x xs ih =>
    intro i h
    by_cases hp : pat.isPrefixOf (x :: xs) = true
    · simp only [find_sub, hp, if_true, Option.some.injEq] at h
      subst h
      simpa using List.isPrefixOf_iff_prefix.1 hp
    · simp only [find_sub, hp, Bool.false_eq_true, if_false, Option.map_eq_some'] at h
      obtain ⟨k, hk, rfl⟩ := h
      simpa using ih hk

/-- A string in which the pattern does not occur: `find` returns `npos`. -/
theorem find_str_none {s pat : Bytes} (h : ¬ pat <:+: s) : find_str s pat 0 = none := by
  cases hf : find_sub pat s with
  | none => simp [find_str, hf]
  | some i =>
    exfalso
    apply h
    have h1 := find_sub_some hf
    exact h1.isInfix.trans (List.drop_suffix i s).isInfix

/-- The call `s.find(pat) == 0` tests whether `s` starts with `pat`. -/
theorem find_str_zero_iff (s pat : Bytes) : find_str s pat 0 = some 0 ↔ pat <+: s := by
  cases s with
  | nil =>
    by_cases hp : pat = []
    · simp [find_str, find_sub, hp]
    · simp [find_str, find_sub, hp]
  | cons x xs =>
    by_cases hp : pat.isPrefixOf (x :: xs) = true
    · have := List.isPrefixOf_iff_prefix.1 hp
      simp [find_str, find_sub, hp, this]
    · have hn : ¬ pat <+: x :: xs := fun h => hp (List.isPrefixOf_iff_prefix.2 h)
      simp [find_str, find_sub, hp, hn]

theorem skip_spaces_loop_replicate (k : Nat) (rest : Bytes) :
    ∀ pos, skip_spaces_loop (List.replicate k ' ' ++ rest) pos = skip_spaces_loop rest (pos + k) := by
  induction k with
  | zero => intro pos; simp
  | succ k ih =>
    intro pos
    have e : List.replicate (k + 1) ' ' ++ rest = ' ' :: (List.replicate k ' ' ++ rest) := by
      simp [List.replicate_succ]
    rw [e, skip_spaces_loop]
    simp only [ne_eq, not_true_eq_false, if_false]
    rw [ih]
    congr 1
    omega

/-- A request line with method `GET`, any number of further spaces, a url token and a
space after it is accepted; the patched request line carries the path of the url. -/
theorem parse_request_line_get (k : Nat) (url tail : Bytes) (hne : url ≠ [])
    (hsp : ' ' ∉ url) :
    parse_request_line ("GET ".toList ++ List.replicate k ' ' ++ url ++ ' ' :: tail)
      = .ok ("GET ".toList ++ (split_url url).2 ++ " HTTP/1.0\r\n".toList, (split_url url).1) := by
  obtain ⟨u, us, rfl⟩ := List.exists_cons_of_ne_nil hne
  have hu : u ≠ ' ' := fun e => hsp (by simp [e])
  have hline : "GET ".toList ++ List.replicate k ' ' ++ (u :: us) ++ ' ' :: tail
      = ("GET ".toList ++ List.replicate k ' ' ++ (u :: us)) ++ ' ' :: tail := by simp
  have h1 : find_char ("GET ".toList ++ List.replicate k ' ' ++ (u :: us) ++ ' ' :: tail) ' ' 0
      = some 3 := by
    simp [find_char, find_first]
  have hdrop : ("GET ".toList ++ List.replicate k ' ' ++ (u :: us) ++ ' ' :: tail).drop (3 + 1)
      = List.replicate k ' ' ++ ((u :: us) ++ ' ' :: tail) := by
    simp
  have h2 : skip_spaces ("GET ".toList ++ List.replicate k ' ' ++ (u :: us) ++ ' ' :: tail) (3 + 1)
      = 4 + k := by
    rw [skip_spaces, hdrop, skip_spaces_loop_replicate]
    simp [skip_spaces_loop, hu]
  have hdrop2 : ("GET ".toList ++ List.replicate k ' ' ++ (u :: us) ++ ' ' :: tail).drop (4 + k)
      = (u :: us) ++ ' ' :: tail := by
    rw [List.append_assoc, List.append_assoc, ← List.append_assoc,
      List.drop_left' (by simp; omega)]
  have h3 : find_char ("GET ".toList ++ List.replicate k ' ' ++ (u :: us) ++ ' ' :: tail) ' ' (4 + k)
      = some (4 + k + (u :: us).length) := by
    rw [find_char, hdrop2, find_first_append _ _ hsp]
    simp
    omega
  have h4 : substr ("GET ".toList ++ List.replicate k ' ' ++ (u :: us) ++ ' ' :: tail) (4 + k)
      (some (4 + k + (u :: us).length - (4 + k))) = u :: us := by
    rw [substr, hdrop2, Nat.add_sub_cancel_left, List.take_left' rfl]
  have h5 : substr ("GET ".toList ++ List.replicate k ' ' ++ (u :: us) ++ ' ' :: tail) 0 (some 3)
      = "GET".toList := by
    simp [substr]
  have hlen : ¬ (4 + k ≥ ("GET ".toList ++ List.replicate k ' ' ++ (u :: us) ++ ' ' :: tail).length) := by
    simp
    omega
  simp only [parse_request_line, h1, h5, h2, h3, h4, hlen, ne_eq, not_true_eq_false, if_false]
  simp

/-! ## What `next_line` consumes -/

theorem pending_reads_append_data (cs : List Bytes) (rest : ReadEnd) :
    pending_reads (cs.map .data ++ rest) = cs.flatten.length + pending_reads rest := by
  induction cs with
  | nil => simp
  | cons c cs ih => simp [pending_reads, ih, Nat.add_assoc]

/-- The loop of `next_line` leaves a final part of the read results, returns no more
bytes than were pending, and raises an exception only on a failed read. -/
theorem next_line_loop_consumes :
    ∀ (sock : ReadEnd) (buf : Bytes) (pos : Option Nat),
      (next_line_loop sock buf pos).2.sock <:+ sock ∧
      (∀ line, (next_line_loop sock buf pos).1 = .ok line →
        pending (next_line_loop sock buf pos).2 + line.length ≤ buf.length + pending_reads sock) ∧
      (∀ e, (next_line_loop sock buf pos).1 = .error e → ReadResult.error ∈ sock) := by
  intro sock
  induction sock with
  | nil =>
    intro buf pos
    cases pos with
    | none => simp [next_line_loop, pending, pending_reads]
    | some i =>
      simp only [next_line_loop, pending, pending_reads, substr, erase_front, List.drop_zero]
      refine ⟨List.suffix_refl _, ?_, by simp⟩
      intro line h
      simp only [Except.ok.injEq] at h
      subst h
      simp
      omega
  | cons r sock ih =>
    intro buf pos
    cases pos with
    | some i =>
      simp only [next_line_loop, pending, substr, erase_front, List.drop_zero]
      refine ⟨List.suffix_refl _, ?_, by simp⟩
      intro line h
      simp only [Except.ok.injEq] at h
      subst h
      simp
      omega
    | none =>
      cases r with
      | eof =>
        simp only [next_line_loop, pending, pending_reads]
        refine ⟨List.suffix_cons _ _, ?_, by simp⟩
        intro line h
        simp only [Except.ok.injEq] at h
        subst h
        simp
        omega
      | error =>
        simp only [next_line_loop, pending, pending_reads]
        exact ⟨List.suffix_cons _ _, by simp, by simp⟩
      | data c =>
        rw [next_line_loop_data]
        obtain ⟨h1, h2, h3⟩ := ih (buf ++ c) (find_char (buf ++ c) '\n' buf.length)
        refine ⟨h1.trans (List.suffix_cons _ _), ?_, ?_⟩
        · intro line h
          have := h2 line h
          simp only [pending_reads, List.length_append] at this ⊢
          omega
        · intro e h
          exact List.mem_cons_of_mem _ (h3 e h)

theorem next_line_consumes (p : LineParser) :
    (next_line p).2.sock <:+ p.sock ∧
    (∀ line, (next_line p).1 = .ok line → pending (next_line p).2 + line.length ≤ pending p) ∧
    (∀ e, (next_line p).1 = .error e → ReadResult.error ∈ p.sock) :=
  next_line_loop_consumes p.sock p.buffered_data _

/-- The only exception that `next_line` raises is the `system_error` of a read. -/
theorem next_line_loop_error_kind :
    ∀ (sock : ReadEnd) (buf : Bytes) (pos : Option Nat) (e : Exn),
      (next_line_loop sock buf pos).1 = .error e → e = .system_error := by
  intro sock
  induction sock with
  | nil =>
    intro buf pos e
    cases pos <;> simp [next_line_loop]
  | cons r sock ih =>
    intro buf pos e
    cases pos with
    | some i => simp [next_line_loop]
    | none =>
      cases r with
      | eof => simp [next_line_loop]
      | error =>
        simp only [next_line_loop, Except.error.injEq]
        exact fun h => h.symm
      | data c =>
        rw [next_line_loop_data]
        exact ih _ _ e

theorem next_line_error_kind (p : LineParser) :
    ∀ e : Exn, (next_line p).1 = .error e → e = .system_error :=
  next_line_loop_error_kind p.sock p.buffered_data _

/-! ## The header loop -/

/-- The test `line.find(pat) == 0` of the header loop agrees with the rewriting of
the specification. -/
theorem header_loop_step (fuel : Nat) (p p1 : LineParser) (req line : Bytes)
    (hrun : next_line p = (.ok line, p1)) (hne : line ≠ []) (hcrlf : line ≠ "\r\n".toList) :
    header_loop (fuel + 1) p req = header_loop fuel p1 (req ++ rewrite_header line) := by
  have hlen : ¬ line.length = 0 := by simpa using hne
  rw [header_loop, hrun]
  simp only [hlen, hcrlf, if_false]
  by_cases h1 : "Connection".toList <+: line
  · have : find_str line "Connection".toList 0 = some 0 := (find_str_zero_iff _ _).2 h1
    rw [if_pos this, rewrite_header, if_pos h1]
  · have h1' : ¬ find_str line "Connection".toList 0 = some 0 :=
      fun h => h1 ((find_str_zero_iff _ _).1 h)
    rw [if_neg h1']
    by_cases h2 : "Proxy-Connection".toList <+: line
    · have : find_str line "Proxy-Connection".toList 0 = some 0 := (find_str_zero_iff _ _).2 h2
      rw [if_pos this, rewrite_header, if_neg h1, if_pos h2]
    · have h2' : ¬ find_str line "Proxy-Connection".toList 0 = some 0 :=
        fun h => h2 ((find_str_zero_iff _ _).1 h)
      rw [if_neg h2', rewrite_header, if_neg h1, if_neg h2]

/-- With enough passes the header loop returns: it never raises a header error, it
raises an exception only when a read failed, and it only appends to `patched_req`. -/
theorem header_loop_total :
    ∀ (fuel : Nat) (p : LineParser) (req : Bytes), pending p < fuel →
      ∃ thrown p1 more, header_loop fuel p req = some (thrown, p1, req ++ more) ∧
        thrown ≠ some .client_header_error ∧ (ReadResult.error ∉ p.sock → thrown = none) := by
  intro fuel
  induction fuel with
  | zero => intro p req h; omega
  | succ fuel ih =>
    intro p req hfuel
    obtain ⟨hsuf, hpend, herr⟩ := next_line_consumes p
    rcases hrun : next_line p with ⟨r, p1⟩
    rw [hrun] at hsuf hpend herr
    cases r with
    | error e =>
      refine ⟨some e, p1, [], by simp [header_loop, hrun], ?_, ?_⟩
      · intro h
        simp only [Option.some.injEq] at h
        subst h
        have := next_line_error_kind p
        rw [hrun] at this
        exact absurd (this _ rfl) (by decide)
      · intro h
        exact absurd (herr e rfl) h
    | ok line =>
      by_cases hne : line = []
      · exact ⟨none, p1, [], by simp [header_loop, hrun, hne], by simp, by simp⟩
      · by_cases hcrlf : line = "\r\n".toList
        · refine ⟨none, p1, line, ?_, by simp, by simp⟩
          subst hcrlf
          rw [header_loop, hrun]
          rfl
        · have hpos : 0 < line.length := List.length_pos.2 hne
          have hp : pending p1 + line.length ≤ pending p := hpend line rfl
          obtain ⟨thrown, p2, more, h1, h2, h3⟩ :=
            ih p1 (req ++ rewrite_header line) (by omega)
          refine ⟨thrown, p2, rewrite_header line ++ more, ?_, h2, ?_⟩
          · rw [header_loop_step fuel p p1 req line hrun hne hcrlf, h1]
            simp
          · intro h
            exact h3 (fun m => h (hsuf.subset m))

theorem complete_line_ne_nil {l : Bytes} (h : complete_line l) : l ≠ [] := by
  obtain ⟨b, e, _⟩ := h
  simp [e]

theorem length_le_length_flatten (hs : List Bytes) (h : ∀ l ∈ hs, l ≠ []) :
    hs.length ≤ hs.flatten.length := by
  induction hs with
  | nil => simp
  | cons x xs ih =>
    have hx : 0 < x.length := List.length_pos.2 (h x (by simp))
    have := ih (fun l hl => h l (by simp [hl]))
    simp only [List.length_cons, List.flatten_cons, List.length_append]
    omega

/-- The header loop on the header lines `hs`: each is rewritten and appended, and the
loop goes on behind them. -/
theorem header_loop_headers (rest : ReadEnd) (s : Bytes) (fuel : Nat) :
    ∀ (hs : List Bytes), (∀ h ∈ hs, complete_line h ∧ h ≠ "\r\n".toList) →
      ∀ (cs : List Bytes) (buf req : Bytes), buf ++ cs.flatten = hs.flatten ++ s →
      ∃ (cs2 : List Bytes) (b : Bytes), b ++ cs2.flatten = s ∧
        header_loop (fuel + hs.length) ⟨cs.map .data ++ rest, buf⟩ req
          = header_loop fuel ⟨cs2.map .data ++ rest, b⟩ (req ++ (hs.map rewrite_header).flatten) := by
  intro hs
  induction hs with
  | nil =>
    intro _ cs buf req e
    exact ⟨cs, buf, by simpa using e, by simp⟩
  | cons h hs ih =>
    intro hhs cs buf req e
    obtain ⟨⟨h0, eh, hh0⟩, hcrlf⟩ := hhs h (by simp)
    have hne : h ≠ [] := complete_line_ne_nil ⟨h0, eh, hh0⟩
    have e1 : buf ++ cs.flatten = h0 ++ '\n' :: (hs.flatten ++ s) := by
      rw [e, eh]; simp
    obtain ⟨_, cs2, b, _, hrun, _, hb⟩ := next_line_line rest h0 _ hh0 cs buf e1
    rw [← eh] at hrun
    obtain ⟨cs3, b3, hb3, hloop⟩ :=
      ih (fun x hx => hhs x (by simp [hx])) cs2 b (req ++ rewrite_header h) hb
    refine ⟨cs3, b3, hb3, ?_⟩
    rw [List.length_cons, ← Nat.add_assoc, header_loop_step _ _ _ req h hrun hne hcrlf, hloop]
    simp

/-- The header loop on a complete header block: the header lines `hs` and the blank
line.  Nothing behind the blank line is read into the request. -/
theorem header_loop_block (rest : ReadEnd) (extra : Bytes) (fuel : Nat) (hs : List Bytes)
    (hhs : ∀ h ∈ hs, complete_line h ∧ h ≠ "\r\n".toList) (cs : List Bytes) (buf req : Bytes)
    (e : buf ++ cs.flatten = hs.flatten ++ ("\r\n".toList ++ extra)) (hfuel : hs.length < fuel) :
    ∃ (cs2 : List Bytes) (b : Bytes), b ++ cs2.flatten = extra ∧
      header_loop fuel ⟨cs.map .data ++ rest, buf⟩ req
        = some (none, ⟨cs2.map .data ++ rest, b⟩,
            req ++ (hs.map rewrite_header).flatten ++ "\r\n".toList) := by
  obtain ⟨f, rfl⟩ : ∃ f, fuel = (f + 1) + hs.length := ⟨fuel - hs.length - 1, by omega⟩
  obtain ⟨cs2, b, hb, hloop⟩ := header_loop_headers rest _ (f + 1) hs hhs cs buf req e
  have hb' : b ++ cs2.flatten = ['\r'] ++ '\n' :: extra := by rw [hb]; rfl
  obtain ⟨_, cs3, b3, _, hrun, _, hb3⟩ := next_line_line rest ['\r'] extra (by decide) cs2 b hb'
  refine ⟨cs3, b3, hb3, ?_⟩
  rw [hloop, header_loop, hrun]
  rfl

/-- The header loop on a header block that the end of the stream cuts short: the
header lines `hs` and the bytes `t` of an unfinished line are rewritten and appended,
and the loop is left through the `break` on the empty line. -/
theorem header_loop_truncated (n : Nat) (t : Bytes) (ht : '\n' ∉ t) (fuel : Nat)
    (hs : List Bytes) (hhs : ∀ h ∈ hs, complete_line h ∧ h ≠ "\r\n".toList) (cs : List Bytes)
    (buf req : Bytes) (e : buf ++ cs.flatten = hs.flatten ++ t)
    (hfuel : hs.length + t.length < fuel) :
    ∃ p2, header_loop fuel ⟨cs.map .data ++ List.replicate n .eof, buf⟩ req
        = some (none, p2, req ++ (hs.map rewrite_header).flatten ++ rewrite_header t) := by
  obtain ⟨f, rfl⟩ : ∃ f, fuel = (f + 1) + hs.length := ⟨fuel - hs.length - 1, by omega⟩
  obtain ⟨cs2, b, hb, hloop⟩ :=
    header_loop_headers (List.replicate n .eof) t (f + 1) hs hhs cs buf req e
  have hrun := next_line_tail n cs2 b (by rw [hb]; exact ht)
  rw [hb] at hrun
  by_cases hne : t = []
  · subst hne
    refine ⟨⟨List.replicate (n - 1) .eof, []⟩, ?_⟩
    rw [hloop, header_loop, hrun]
    simp [rewrite_header]
  · have hcrlf : t ≠ "\r\n".toList := by
      intro h
      apply ht
      rw [h]
      decide
    have hpos : 0 < t.length := List.length_pos.2 hne
    obtain ⟨g, rfl⟩ : ∃ g, f = g + 1 := ⟨f - 1, by omega⟩
    have hrun2 := next_line_tail (n - 1) [] [] (by simp)
    simp only [List.map_nil, List.nil_append, List.flatten_nil, List.append_nil] at hrun2
    refine ⟨⟨List.replicate (n - 1 - 1) .eof, []⟩, ?_⟩
    rw [hloop, header_loop_step _ _ _ _ t hrun hne hcrlf, header_loop, hrun2]
    simp

/-! ## The request patcher as a whole -/

/-- The three parts of `patch_request`: the first line read, the request line parsed,
the header loop run. -/
theorem patch_request_parts (p p1 p2 : LineParser) (req0 host0 L pl host req : Bytes)
    (thrown : Option Exn) (hrun : next_line p = (.ok L, p1))
    (hget : parse_request_line L = .ok (pl, host))
    (hloop : header_loop (pending p1 + 1) p1 pl = some (thrown, p2, req)) :
    patch_request p req0 host0 = some (thrown, ⟨p2, req, host⟩) := by
  simp only [patch_request, hrun, hget, hloop]

/-- A request line that the first block rejects: `patch_request` raises the exception
and leaves the output parameters as they were. -/
theorem patch_request_rejected (p p1 : LineParser) (req0 host0 L : Bytes) (e : Exn)
    (hrun : next_line p = (.ok L, p1)) (hget : parse_request_line L = .error e) :
    patch_request p req0 host0 = some (some e, ⟨p1, req0, host0⟩) := by
  simp only [patch_request, hrun, hget]

/-- The function `patch_request` always returns or raises: the passes of the header
loop never run out. -/
theorem patch_request_total (p : LineParser) (req0 host0 : Bytes) :
    ∃ r, patch_request p req0 host0 = some r := by
  rcases hrun : next_line p with ⟨r, p1⟩
  cases r with
  | error e =>
    refine ⟨(some e, ⟨p1, req0, host0⟩), ?_⟩
    simp only [patch_request, hrun]
  | ok L =>
    cases hget : parse_request_line L with
    | error e => exact ⟨_, patch_request_rejected p p1 req0 host0 L e hrun hget⟩
    | ok r =>
      obtain ⟨pl, host⟩ := r
      obtain ⟨thrown, p2, more, h, _, _⟩ :=
        header_loop_total (pending p1 + 1) p1 pl (Nat.lt_succ_self _)
      exact ⟨_, patch_request_parts p p1 p2 req0 host0 L pl host _ thrown hrun hget h⟩

/-- The reads of a complete request line leave at least the bytes behind it pending. -/
theorem pending_after_line (rest : ReadEnd) (cs2 : List Bytes) (b s : Bytes)
    (hb : b ++ cs2.flatten = s) :
    s.length ≤ pending ⟨cs2.map .data ++ rest, b⟩ := by
  rw [pending, pending_reads_append_data, ← hb]
  simp only [List.length_append]
  omega

/-- The first block of `patch_request` rejects every malformed request line. -/
theorem parse_request_line_malformed (line : Bytes) (h : malformed_request_line line) :
    parse_request_line line = .error .client_header_error := by
  rcases h with h | ⟨m, r, e, hm, hget⟩ | ⟨k, e⟩ | ⟨k, u, e, hu, hsp⟩
  · have : find_char line ' ' 0 = none := by
      rw [find_char_zero]; exact find_first_eq_none.2 h
    simp only [parse_request_line, this]
  · subst e
    have h1 : find_char (m ++ ' ' :: r) ' ' 0 = some m.length :=
      find_char_append m r 0 hm (Nat.zero_le _)
    have h2 : substr (m ++ ' ' :: r) 0 (some m.length) = m := by
      simp [substr]
    simp only [parse_request_line, h1, h2, ne_eq, hget, not_false_eq_true, if_true]
  · subst e
    have h1 : find_char ("GET ".toList ++ List.replicate k ' ') ' ' 0 = some 3 := by
      simp [find_char, find_first]
    have h5 : substr ("GET ".toList ++ List.replicate k ' ') 0 (some 3) = "GET".toList := by
      simp [substr]
    have hdrop : ("GET ".toList ++ List.replicate k ' ').drop (3 + 1)
        = List.replicate k ' ' ++ [] := by simp
    have h2 : skip_spaces ("GET ".toList ++ List.replicate k ' ') (3 + 1) = 4 + k := by
      rw [skip_spaces, hdrop, skip_spaces_loop_replicate]
      simp [skip_spaces_loop]
    have hlen : 4 + k ≥ ("GET ".toList ++ List.replicate k ' ').length := by
      simp
      omega
    simp only [parse_request_line, h1, h5, h2, hlen, ne_eq, not_true_eq_false, if_false, if_true]
  · subst e
    obtain ⟨c, cs, rfl⟩ := List.exists_cons_of_ne_nil hu
    have hc : c ≠ ' ' := fun e => hsp (by simp [e])
    have h1 : find_char ("GET ".toList ++ List.replicate k ' ' ++ c :: cs) ' ' 0 = some 3 := by
      simp [find_char, find_first]
    have h5 : substr ("GET ".toList ++ List.replicate k ' ' ++ c :: cs) 0 (some 3)
        = "GET".toList := by
      simp [substr]
    have hdrop : ("GET ".toList ++ List.replicate k ' ' ++ c :: cs).drop (3 + 1)
        = List.replicate k ' ' ++ c :: cs := by simp
    have h2 : skip_spaces ("GET ".toList ++ List.replicate k ' ' ++ c :: cs) (3 + 1) = 4 + k := by
      rw [skip_spaces, hdrop, skip_spaces_loop_replicate]
      simp [skip_spaces_loop, hc]
    have hlen : ¬ (4 + k ≥ ("GET ".toList ++ List.replicate k ' ' ++ c :: cs).length) := by
      simp
      omega
    have hdrop2 : ("GET ".toList ++ List.replicate k ' ' ++ c :: cs).drop (4 + k) = c :: cs := by
      rw [List.drop_left' (by simp; omega)]
    have h3 : find_char ("GET ".toList ++ List.replicate k ' ' ++ c :: cs) ' ' (4 + k) = none := by
      rw [find_char_eq_none, hdrop2]; exact hsp
    simp only [parse_request_line, h1, h5, h2, hlen, h3, ne_eq, not_true_eq_false, if_false]

/-- The split of a stream into lines takes a first complete line off. -/
theorem split_lines_line (l more : Bytes) (hl : '\n' ∉ l) :
    split_lines (l ++ '\n' :: more)
      = ((l ++ ['\n']) :: (split_lines more).1, (split_lines more).2) := by
  induction l with
  | nil => simp [split_lines]
  | cons x xs ih =>
    have hx : x ≠ '\n' := fun e => hl (by simp [e])
    have hxs : '\n' ∉ xs := fun m => hl (by simp [m])
    simp [split_lines, hx, ih hxs]

/-- The url split when a slash follows the host: the host is the part of the
remainder (behind the first double slash, if any) before its first slash, the path is
the part from that slash on. -/
theorem split_url_with_path (url h q : Bytes) (hh : '/' ∉ h)
    (hrem : (match find_str url "//".toList 0 with
      | some i => url.drop (i + 2)
      | none => url) = h ++ '/' :: q) :
    split_url url = (h, '/' :: q) := by
  unfold split_url
  cases hf : find_str url "//".toList 0 with
  | none =>
    rw [hf] at hrem
    simp only at hrem
    subst hrem
    have : find_char (h ++ '/' :: q) '/' 0 = some h.length :=
      find_char_append h q 0 hh (Nat.zero_le _)
    simp [this, substr]
  | some i =>
    rw [hf] at hrem
    simp only at hrem
    have h1 : find_char url '/' (i + 2) = some (h.length + (i + 2)) := by
      rw [find_char, hrem, find_first_append _ _ hh]; rfl
    simp only [h1, substr, Nat.add_sub_cancel]
    rw [hrem, List.take_left' rfl]
    have : url.drop (h.length + (i + 2)) = (url.drop (i + 2)).drop h.length := by
      rw [List.drop_drop, Nat.add_comm]
    rw [this, hrem, List.drop_left' rfl]

/-- The url split when no slash follows the host: the path is `/` and the host is the
whole url, the scheme not taken off. -/
theorem split_url_without_path (url : Bytes)
    (hrem : '/' ∉ (match find_str url "//".toList 0 with
      | some i => url.drop (i + 2)
      | none => url)) :
    split_url url = (url, "/".toList) := by
  unfold split_url
  cases hf : find_str url "//".toList 0 with
  | none =>
    rw [hf] at hrem
    simp only at hrem
    have : find_char url '/' 0 = none := by
      rw [find_char_eq_none]; simpa using hrem
    simp [this]
  | some i =>
    rw [hf] at hrem
    simp only at hrem
    have : find_char url '/' (i + 2) = none := find_char_eq_none.2 hrem
    simp [this]

/-- The worker count away from the least `int`: the argument clamped to 1 .. 257. -/
theorem main_workers_clamped (n : Int) (hlo : -2147483648 < n) (hhi : n ≤ 2147483647) :
    (main_workers 3 n).map List.length = some (clamp 1 257 n).toNat := by
  have hw : wrap_int (n - 1) = n - 1 := by
    unfold wrap_int
    omega
  simp only [main_workers, thread_num, hw, create_threadpool, clamp]
  simp
  omega

/-- The request patcher on a valid first line, header lines and the blank line. -/
theorem patch_request_block_run (L pl host : Bytes) (hs : List Bytes) (extra : Bytes)
    (cs : List Bytes) (rest : ReadEnd) (req0 host0 : Bytes)
    (hL : complete_line L) (hget : parse_request_line L = .ok (pl, host))
    (hhs : ∀ h ∈ hs, complete_line h ∧ h ≠ "\r\n".toList)
    (hcs : cs.flatten = L ++ hs.flatten ++ "\r\n".toList ++ extra) :
    ∃ (cs2 : List Bytes) (b : Bytes), b ++ cs2.flatten = extra ∧
      patch_request ⟨cs.map .data ++ rest, []⟩ req0 host0
        = some (none, ⟨⟨cs2.map .data ++ rest, b⟩,
            pl ++ (hs.map rewrite_header).flatten ++ "\r\n".toList, host⟩) := by
  obtain ⟨L0, eL, hL0⟩ := hL
  have e1 : ([] : Bytes) ++ cs.flatten = L0 ++ '\n' :: (hs.flatten ++ ("\r\n".toList ++ extra)) := by
    rw [hcs, eL]; simp
  obtain ⟨_, cs2, b, _, hrun, _, hb⟩ := next_line_line rest L0 _ hL0 cs [] e1
  rw [← eL] at hrun
  have hpend := pending_after_line rest cs2 b _ hb
  have hlen := length_le_length_flatten hs (fun l hl => complete_line_ne_nil (hhs l hl).1)
  rw [List.length_append] at hpend
  obtain ⟨cs3, b3, hb3, hloop⟩ :=
    header_loop_block rest extra (pending ⟨cs2.map .data ++ rest, b⟩ + 1) hs hhs cs2 b pl hb
      (by omega)
  exact ⟨cs3, b3, hb3, patch_request_parts _ _ _ req0 host0 L pl host _ none hrun hget hloop⟩

/-- The session always comes to an end in the model. -/
theorem proxy_routine_total (client_in : ReadEnd) (client_out : WriteEnd) (up : Upstream) :
    ∃ r, proxy_routine client_in client_out up = some r := by
  obtain ⟨⟨thrown, st⟩, h⟩ := patch_request_total ⟨client_in, []⟩ [] []
  unfold proxy_routine
  rw [h]
  cases thrown with
  | some e => cases e <;> exact ⟨_, rfl⟩
  | none =>
    simp only
    split
    · exact ⟨_, rfl⟩
    · split
      · exact ⟨_, rfl⟩
      · split
        · exact ⟨_, rfl⟩
        · split <;> exact ⟨_, rfl⟩

/-! ## The path part of a url -/

theorem from_first_slash_eq (s : Bytes) :
    from_first_slash s = match find_first '/' s with
      | none => ['/']
      | some k => s.drop k := by
  induction s with
  | nil => rfl
  | cons c rest ih =>
    by_cases hc : c = '/'
    · simp [from_first_slash, find_first, hc]
    · rw [from_first_slash, if_neg hc, ih, find_first, if_neg hc]
      cases find_first '/' rest <;> simp

theorem behind_double_slash_eq :
    ∀ s : Bytes, behind_double_slash s
      = (find_sub "//".toList s).map (fun i => s.drop (i + 2)) := by
  intro s
  induction s with
  | nil => simp [behind_double_slash, find_sub]
  | cons a rest ih =>
    cases rest with
    | nil => simp [behind_double_slash, find_sub, List.isPrefixOf]
    | cons b rest =>
      by_cases h : a = '/' ∧ b = '/'
      · obtain ⟨ha, hb⟩ := h
        subst ha hb
        simp [behind_double_slash, find_sub, List.isPrefixOf]
      · have hpre : List.isPrefixOf "//".toList (a :: b :: rest) = false := by
          rcases not_and_or.1 h with h | h
          · simp [List.isPrefixOf, Ne.symm h]
          · simp [List.isPrefixOf, Ne.symm h]
        have hfs : find_sub "//".toList (a :: b :: rest)
            = (find_sub "//".toList (b :: rest)).map (· + 1) := by
          conv_lhs => rw [find_sub]
          rw [hpre]
          rfl
        rw [behind_double_slash, if_neg h, ih, hfs]
        cases find_sub "//".toList (b :: rest) <;> simp

/-- The new value of `url` that lines 228-237 compute is the path part of the url
token in the words of the specification. -/
theorem split_url_snd (url : Bytes) : (split_url url).2 = url_path url := by
  have hstr : find_str url "//".toList 0 = find_sub "//".toList url := by
    simp [find_str]
  unfold split_url url_path
  rw [hstr, behind_double_slash_eq]
  cases find_sub "//".toList url with
  | none =>
    simp only [Option.map_none', find_char_zero, from_first_slash_eq]
    cases find_first '/' url with
    | none => rfl
    | some k => simp [substr]
  | some i =>
    simp only [Option.map_some', find_char, from_first_slash_eq]
    cases find_first '/' (url.drop (i + 2)) with
    | none => rfl
    | some k => simp [substr, Nat.add_comm]

/-- The path part is the single slash or a final part of the url. -/
theorem from_first_slash_cases (s : Bytes) :
    from_first_slash s = ['/'] ∨ from_first_slash s <:+ s := by
  rw [from_first_slash_eq]
  cases find_first '/' s with
  | none => exact Or.inl rfl
  | some k => exact Or.inr (List.drop_suffix k s)

theorem mem_url_path {c : Char} {url : Bytes} (h : c ∈ url_path url) : c = '/' ∨ c ∈ url := by
  unfold url_path at h
  rw [behind_double_slash_eq] at h
  cases hf : find_sub "//".toList url with
  | none =>
    rw [hf] at h
    rcases from_first_slash_cases url with e | e
    · rw [Option.map_none'] at h
      simp only at h
      rw [e] at h
      exact Or.inl (by simpa using h)
    · exact Or.inr (e.subset h)
  | some i =>
    rw [hf] at h
    simp only [Option.map_some'] at h
    rcases from_first_slash_cases (url.drop (i + 2)) with e | e
    · rw [e] at h
      exact Or.inl (by simpa using h)
    · exact Or.inr (List.mem_of_mem_drop (e.subset h))

/-- A string in which `find_sub` does not find the pattern has no occurrence of it. -/
theorem find_sub_none {pat : Bytes} :
    ∀ {s : Bytes}, find_sub pat s = none → ¬ pat <:+: s := by
  intro s
  induction s with
  | nil =>
    intro h hin
    have : pat = [] := List.eq_nil_of_infix_nil hin
    simp [find_sub, this] at h
  | cons x xs ih =>
    intro h hin
    by_cases hp : pat.isPrefixOf (x :: xs) = true
    · simp [find_sub, hp] at h
    · simp only [find_sub, hp, Bool.false_eq_true, if_false, Option.map_eq_none'] at h
      rcases List.infix_cons_iff.1 hin with hpre | hinf
      · exact hp (List.isPrefixOf_iff_prefix.2 hpre)
      · exact ih h hinf

/-- The path part of a url token is the token itself exactly when the token starts
with a slash and has no double slash. -/
theorem url_path_eq_self_iff (url : Bytes) :
    url_path url = url ↔ url.head? = some '/' ∧ ¬ "//".toList <:+: url := by
  unfold url_path
  rw [behind_double_slash_eq]
  cases hf : find_sub "//".toList url with
  | none =>
    have hno : ¬ "//".toList <:+: url := find_sub_none hf
    simp only [Option.map_none', hno, not_false_eq_true, and_true]
    cases url with
    | nil => simp [from_first_slash]
    | cons c rest =>
      by_cases hc : c = '/'
      · simp [from_first_slash, hc]
      · rw [from_first_slash, if_neg hc]
        simp only [List.head?_cons, Option.some.injEq, hc, iff_false]
        intro e
        rcases from_first_slash_cases rest with e1 | e1
        · rw [e1] at e
          simp only [List.cons.injEq] at e
          exact hc e.1.symm
        · have := e1.length_le
          rw [e] at this
          simp at this
  | some i =>
    have hin : "//".toList <:+: url :=
      (find_sub_some hf).isInfix.trans (List.drop_suffix i url).isInfix
    simp only [Option.map_some', hin, not_true_eq_false, and_false, iff_false]
    intro e
    have h2 : 2 ≤ (url.drop i).length := by
      have := (find_sub_some hf).length_le
      simpa using this
    rw [List.length_drop] at h2
    have hlen : (from_first_slash (url.drop (i + 2))).length < url.length := by
      rcases from_first_slash_cases (url.drop (i + 2)) with e1 | e1
      · rw [e1]
        simp
        omega
      · have := e1.length_le
        rw [List.length_drop] at this
        omega
    rw [e] at hlen
    exact Nat.lt_irrefl _ hlen

/-- The request patcher on a request line `GET url HTTP/1.1`: the first line of the
patched request carries the path part of the url. -/
theorem patch_request_get_line (url : Bytes) (p p1 : LineParser) (req0 host0 : Bytes)
    (hne : url ≠ []) (hsp : ' ' ∉ url) (hlf : '\n' ∉ url)
    (hrun : next_line p = (.ok ("GET ".toList ++ url ++ " HTTP/1.1\r\n".toList), p1)) :
    ∃ thrown st more, patch_request p req0 host0 = some (thrown, st) ∧
      thrown ≠ some .client_header_error ∧ (ReadResult.error ∉ p.sock → thrown = none) ∧
      st.patched_req = "GET ".toList ++ url_path url ++ " HTTP/1.0\r\n".toList ++ more ∧
      (split_lines st.patched_req).1.head?
        = some ("GET ".toList ++ url_path url ++ " HTTP/1.0\r\n".toList) := by
  have hget := parse_request_line_get 0 url "HTTP/1.1\r\n".toList hne hsp
  rw [split_url_snd] at hget
  have hline : "GET ".toList ++ List.replicate 0 ' ' ++ url ++ ' ' :: "HTTP/1.1\r\n".toList
      = "GET ".toList ++ url ++ " HTTP/1.1\r\n".toList := by
    simp
  rw [hline] at hget
  obtain ⟨hsuf, _, _⟩ := next_line_consumes p
  rw [hrun] at hsuf
  obtain ⟨thrown, p2, more, hloop, hthrown, hnone⟩ :=
    header_loop_total (pending p1 + 1) p1
      ("GET ".toList ++ url_path url ++ " HTTP/1.0\r\n".toList) (Nat.lt_succ_self _)
  have hnolf : '\n' ∉ "GET ".toList ++ url_path url ++ " HTTP/1.0\r".toList := by
    intro h
    rcases List.mem_append.1 h with h | h
    · rcases List.mem_append.1 h with h | h
      · exact absurd h (by decide)
      · rcases mem_url_path h with h | h
        · exact absurd h (by decide)
        · exact hlf h
    · exact absurd h (by decide)
  have hshape : "GET ".toList ++ url_path url ++ " HTTP/1.0\r\n".toList ++ more
      = ("GET ".toList ++ url_path url ++ " HTTP/1.0\r".toList) ++ '\n' :: more := by
    simp
  refine ⟨thrown, ⟨p2, _, (split_url url).1⟩, more,
    patch_request_parts p p1 p2 req0 host0 _ _ _ _ thrown hrun hget hloop, hthrown,
    fun h => hnone (fun m => h (hsuf.subset m)), rfl, ?_⟩
  show (split_lines ("GET ".toList ++ url_path url ++ " HTTP/1.0\r\n".toList ++ more)).1.head? = _
  rw [hshape, split_lines_line _ _ hnolf]
  simp

/-! ## Claims on the line reader -/

/-- C7: however a byte stream is delivered as successful read chunks `cs`, the first
`j` calls of `next_line` on a fresh parser (for `j` up to the number of line feeds
delivered) return the first `j` pieces of the split of the concatenated stream after
each line feed, so the same lines for every chunking; every piece ends with a line
feed and has exactly one; and the returned lines followed by the backlog are exactly
the bytes of the chunks `cs1` read so far. -/
theorem next_line_refines_split_lines (cs : List Bytes) (rest : ReadEnd) (j : Nat)
    (hj : j ≤ (split_lines cs.flatten).1.length) :
    ((split_lines cs.flatten).1.flatten ++ (split_lines cs.flatten).2 = cs.flatten ∧
      '\n' ∉ (split_lines cs.flatten).2 ∧
      ∀ l ∈ (split_lines cs.flatten).1, l.getLast? = some '\n' ∧ l.count '\n' = 1) ∧
    (∃ cs1 cs2 b, cs = cs1 ++ cs2 ∧
      next_lines j ⟨cs.map .data ++ rest, []⟩
        = (((split_lines cs.flatten).1.take j).map .ok, ⟨cs2.map .data ++ rest, b⟩) ∧
      ((split_lines cs.flatten).1.take j).flatten ++ b = cs1.flatten) ∧
    (∀ (cs' : List Bytes) (rest' : ReadEnd), cs'.flatten = cs.flatten →
      (next_lines j ⟨cs'.map .data ++ rest', []⟩).1
        = (next_lines j ⟨cs.map .data ++ rest, []⟩).1) := by
  have key : ∀ (ds : List Bytes) (r : ReadEnd), ds.flatten = cs.flatten →
      ∃ ds1 ds2 b, ds = ds1 ++ ds2 ∧
        next_lines j ⟨ds.map .data ++ r, []⟩
          = (((split_lines cs.flatten).1.take j).map .ok, ⟨ds2.map .data ++ r, b⟩) ∧
        ((split_lines cs.flatten).1.take j).flatten ++ b = ds1.flatten := by
    intro ds r hds
    have hlen : ((split_lines cs.flatten).1.take j).length = j := by
      rw [List.length_take]; omega
    have hsplit : ([] : Bytes) ++ ds.flatten
        = ((split_lines cs.flatten).1.take j).flatten
          ++ (((split_lines cs.flatten).1.drop j).flatten ++ (split_lines cs.flatten).2) := by
      rw [← List.append_assoc, ← List.flatten_append, List.take_append_drop,
        split_lines_flatten, hds]
      simp
    obtain ⟨ds1, ds2, b, e, hrun, hb, _⟩ :=
      next_lines_lines r _ ((split_lines cs.flatten).1.take j)
        (fun l hl => split_lines_complete _ l (List.mem_of_mem_take hl)) ds [] hsplit
    rw [hlen] at hrun
    exact ⟨ds1, ds2, b, e, hrun, by simpa using hb.symm⟩
  refine ⟨⟨split_lines_flatten _, split_lines_rest _,
    fun l hl => complete_line_shape (split_lines_complete _ l hl)⟩, key cs rest rfl, ?_⟩
  intro cs' rest' h
  obtain ⟨_, _, _, _, h1, _⟩ := key cs' rest' h
  obtain ⟨_, _, _, _, h2, _⟩ := key cs rest rfl
  rw [h1, h2]

/-- C8: a stream made of the complete lines `ls` and trailing bytes `t` without line
feed, delivered in any chunks and followed by end-of-stream on every later read:
`next_line` returns the lines, then `t` once, then the empty string on each of the
`m` later calls, and the backlog is empty from the call that returned `t` on. -/
theorem next_line_after_end (ls : List Bytes) (t : Bytes) (cs : List Bytes) (n m : Nat)
    (hls : ∀ l ∈ ls, complete_line l) (ht : '\n' ∉ t) (hcs : cs.flatten = ls.flatten ++ t) :
    next_lines (ls.length + 1 + m) ⟨cs.map .data ++ List.replicate n .eof, []⟩
      = (ls.map .ok ++ .ok t :: List.replicate m (.ok []),
          ⟨List.replicate (n - 1 - m) .eof, []⟩) := by
  obtain ⟨cs1, cs2, b, _, hrun, _, hb⟩ :=
    next_lines_lines (List.replicate n .eof) t ls hls cs [] (by simpa using hcs)
  have htail := next_line_tail n cs2 b (by rw [hb]; exact ht)
  rw [Nat.add_assoc, next_lines_add, hrun, Nat.add_comm 1 m, next_lines_succ, htail,
    next_lines_ended, hb]

theorem next_line_refines_split_lines_witness :
    2 ≤ (split_lines [['a', 'b', '\n', 'c'], ['d', '\n'], ['e']].flatten).1.length ∧
    ∃ cs1 cs2 b, [['a', 'b', '\n', 'c'], ['d', '\n'], ['e']] = cs1 ++ cs2 ∧
      next_lines 2 ⟨[['a', 'b', '\n', 'c'], ['d', '\n'], ['e']].map .data ++ [.error], []⟩
        = (((split_lines [['a', 'b', '\n', 'c'], ['d', '\n'], ['e']].flatten).1.take 2).map .ok,
            ⟨cs2.map .data ++ [.error], b⟩) ∧
      ((split_lines [['a', 'b', '\n', 'c'], ['d', '\n'], ['e']].flatten).1.take 2).flatten ++ b
        = cs1.flatten :=
  ⟨by decide,
    (next_line_refines_split_lines [['a', 'b', '\n', 'c'], ['d', '\n'], ['e']] [.error] 2
      (by decide)).2.1⟩

theorem next_line_after_end_witness :
    (∀ l ∈ [['a', '\n']], complete_line l) ∧ '\n' ∉ ['b', 'c'] ∧
    [['a'], ['\n', 'b'], ['c']].flatten = [['a', '\n']].flatten ++ ['b', 'c'] ∧
    next_lines ([['a', '\n']].length + 1 + 2)
        ⟨[['a'], ['\n', 'b'], ['c']].map .data ++ List.replicate 1 .eof, []⟩
      = ([['a', '\n']].map .ok ++ .ok ['b', 'c'] :: List.replicate 2 (.ok []),
          ⟨List.replicate (1 - 1 - 2) .eof, []⟩) :=
  have h : ∀ l ∈ [['a', '\n']], complete_line l := by
    intro l hl
    rw [List.mem_singleton] at hl
    exact ⟨['a'], by rw [hl]; rfl, by decide⟩
  ⟨h, by decide, by decide,
    next_line_after_end [['a', '\n']] ['b', 'c'] [['a'], ['\n', 'b'], ['c']] 1 2 h
      (by decide) (by decide)⟩

/-! ## Claim on the relay -/

/-- C9: the upstream delivers the chunks `cs`, each of at most `BUFF_SIZE` bytes, and
then end-of-stream, and every write to the client succeeds: `relay_back_to_client`
returns without an exception, the client has received exactly the bytes of
`cs` in order (as many bytes as the chunks hold), and the operations issued are, for
each chunk in turn, one read and then one write of that whole chunk, followed by the
read that meets the end of the stream. -/
theorem relay_forwards_all (cs : List Bytes) (n : Nat) (client : WriteEnd)
    (_hsize : ∀ c ∈ cs, c.length ≤ BUFF_SIZE) (hw : ∀ o ∈ client.outcomes, o = none) :
    relay_back_to_client (cs.map .data ++ List.replicate n .eof) client
        = (none, List.replicate (n - 1) .eof,
            ⟨client.sent ++ cs.flatten, client.outcomes.drop cs.length⟩,
            (cs.flatMap fun c => [RelayOp.read, RelayOp.write c]) ++ [RelayOp.read]) ∧
      (client.sent ++ cs.flatten).length = client.sent.length + (cs.map List.length).sum :=
  ⟨relay_chunks n cs client hw, by simp [List.length_flatten]⟩

theorem relay_forwards_all_witness :
    (∀ c ∈ [['a', 'b'], ['c']], c.length ≤ BUFF_SIZE) ∧
    (∀ o ∈ (⟨[], [none]⟩ : WriteEnd).outcomes, o = none) ∧
    relay_back_to_client ([['a', 'b'], ['c']].map .data ++ List.replicate 1 .eof) ⟨[], [none]⟩
        = (none, List.replicate (1 - 1) .eof,
            ⟨[] ++ [['a', 'b'], ['c']].flatten, [none].drop [['a', 'b'], ['c']].length⟩,
            ([['a', 'b'], ['c']].flatMap fun c => [RelayOp.read, RelayOp.write c])
              ++ [RelayOp.read]) :=
  have h1 : ∀ c ∈ [['a', 'b'], ['c']], c.length ≤ BUFF_SIZE := by decide
  have h2 : ∀ o ∈ (⟨[], [none]⟩ : WriteEnd).outcomes, o = none := by decide
  ⟨h1, h2, (relay_forwards_all [['a', 'b'], ['c']] 1 ⟨[], [none]⟩ h1 h2).1⟩

/-! ## Claims on the request patcher -/

/-- C1, as the specification states it, fails: for the token `http://example.com/a`,
which is not empty and has no space, CR or LF, the request line
`GET http://example.com/a HTTP/1.1` is patched to `GET /a HTTP/1.0`, so the first line
of the patched request does not carry the same token. -/
theorem patch_request_absolute_url :
    "http://example.com/a".toList ≠ [] ∧ ' ' ∉ "http://example.com/a".toList ∧
    '\r' ∉ "http://example.com/a".toList ∧ '\n' ∉ "http://example.com/a".toList ∧
    next_line ⟨[.data "GET http://example.com/a HTTP/1.1\r\n\r\n".toList], []⟩
      = (.ok ("GET ".toList ++ "http://example.com/a".toList ++ " HTTP/1.1\r\n".toList),
          ⟨[], "\r\n".toList⟩) ∧
    patch_request ⟨[.data "GET http://example.com/a HTTP/1.1\r\n\r\n".toList], []⟩ [] []
      = some (none, ⟨⟨[], []⟩, "GET /a HTTP/1.0\r\n\r\n".toList, "example.com".toList⟩) ∧
    ¬ ("GET ".toList ++ "http://example.com/a".toList ++ " HTTP/1.0\r\n".toList
        <+: "GET /a HTTP/1.0\r\n\r\n".toList) := by
  decide

/-- C1, amended: for a non-empty token `path` without space and line feed, when
`next_line` delivers `GET path HTTP/1.1` as first line, `patch_request` raises no
header error (and no exception at all when no client read fails), and the first line
of the patched request is exactly `GET q HTTP/1.0` for the path part `q` of the token:
of the token behind its first double slash (of the whole token when it has none) the
part from the first slash on, or `/` when there is no slash.  The path part is the
token itself exactly when the token starts with a slash and has no double slash. -/
theorem patch_request_first_line (path : Bytes) (p p1 : LineParser) (req0 host0 : Bytes)
    (hne : path ≠ []) (hsp : ' ' ∉ path) (hlf : '\n' ∉ path)
    (hrun : next_line p = (.ok ("GET ".toList ++ path ++ " HTTP/1.1\r\n".toList), p1)) :
    (∃ thrown st more, patch_request p req0 host0 = some (thrown, st) ∧
      thrown ≠ some .client_header_error ∧ (ReadResult.error ∉ p.sock → thrown = none) ∧
      st.patched_req = "GET ".toList ++ url_path path ++ " HTTP/1.0\r\n".toList ++ more ∧
      (split_lines st.patched_req).1.head?
        = some ("GET ".toList ++ url_path path ++ " HTTP/1.0\r\n".toList)) ∧
    (url_path path = path ↔ path.head? = some '/' ∧ ¬ "//".toList <:+: path) :=
  ⟨patch_request_get_line path p p1 req0 host0 hne hsp hlf hrun, url_path_eq_self_iff path⟩

theorem patch_request_first_line_witness :
    "http://example.com/a".toList ≠ [] ∧ ' ' ∉ "http://example.com/a".toList ∧
    '\n' ∉ "http://example.com/a".toList ∧
    next_line ⟨[.data "GET http://example.com/a HTTP/1.1\r\nHost: a\r\n".toList, .error], []⟩
      = (.ok ("GET ".toList ++ "http://example.com/a".toList ++ " HTTP/1.1\r\n".toList),
          ⟨[.error], "Host: a\r\n".toList⟩) ∧
    url_path "http://example.com/a".toList = "/a".toList ∧
    ∃ thrown st more,
      patch_request
          ⟨[.data "GET http://example.com/a HTTP/1.1\r\nHost: a\r\n".toList, .error], []⟩ [] []
        = some (thrown, st) ∧
      thrown ≠ some .client_header_error ∧
      (ReadResult.error ∉
          (⟨[.data "GET http://example.com/a HTTP/1.1\r\nHost: a\r\n".toList, .error], []⟩ :
            LineParser).sock → thrown = none) ∧
      st.patched_req = "GET ".toList ++ url_path "http://example.com/a".toList
          ++ " HTTP/1.0\r\n".toList ++ more ∧
      (split_lines st.patched_req).1.head?
        = some ("GET ".toList ++ url_path "http://example.com/a".toList
            ++ " HTTP/1.0\r\n".toList) :=
  ⟨by decide, by decide, by decide, by decide, by decide,
    (patch_request_first_line "http://example.com/a".toList
      ⟨[.data "GET http://example.com/a HTTP/1.1\r\nHost: a\r\n".toList, .error], []⟩
      ⟨[.error], "Host: a\r\n".toList⟩ [] [] (by decide) (by decide) (by decide)
      (by decide)).1⟩

/-- C2: a request line without any space, or with a method other than `GET`, or with
nothing but spaces after the method, or with no space after the url token, makes
`patch_request` raise `client_header_error` (the output parameters untouched), and
the session then leaves the upstream connection as it was: nothing is written to it. -/
theorem malformed_request_line_rejected (line : Bytes) (hbad : malformed_request_line line) :
    (∀ (p p1 : LineParser) (req0 host0 : Bytes), next_line p = (.ok line, p1) →
      patch_request p req0 host0 = some (some .client_header_error, ⟨p1, req0, host0⟩)) ∧
    (∀ (client_in : ReadEnd) (client_out : WriteEnd) (up : Upstream) (p1 : LineParser),
      next_line ⟨client_in, []⟩ = (.ok line, p1) →
      proxy_routine client_in client_out up
        = some ⟨some .header_error, up.server_out, client_out⟩) := by
  have hget := parse_request_line_malformed line hbad
  refine ⟨fun p p1 req0 host0 hrun => patch_request_rejected p p1 req0 host0 line _ hrun hget, ?_⟩
  intro client_in client_out up p1 hrun
  rw [proxy_routine, patch_request_rejected ⟨client_in, []⟩ p1 [] [] line _ hrun hget]

theorem malformed_request_line_rejected_witness :
    malformed_request_line "POST / HTTP/1.1\r\n".toList ∧
    next_line ⟨[.data "POST / HTTP/1.1\r\n\r\n".toList], []⟩
      = (.ok "POST / HTTP/1.1\r\n".toList, ⟨[], "\r\n".toList⟩) ∧
    proxy_routine [.data "POST / HTTP/1.1\r\n\r\n".toList] ⟨[], []⟩
        ⟨fun _ => true, fun _ => true, [.data "HTTP/1.0 200 OK\r\n\r\n".toList], ⟨[], []⟩⟩
      = some ⟨some .header_error, ⟨[], []⟩, ⟨[], []⟩⟩ :=
  have h : malformed_request_line "POST / HTTP/1.1\r\n".toList :=
    Or.inr (Or.inl ⟨"POST".toList, "/ HTTP/1.1\r\n".toList, by decide, by decide, by decide⟩)
  ⟨h, by decide,
    (malformed_request_line_rejected "POST / HTTP/1.1\r\n".toList h).2
      [.data "POST / HTTP/1.1\r\n\r\n".toList] ⟨[], []⟩
      ⟨fun _ => true, fun _ => true, [.data "HTTP/1.0 200 OK\r\n\r\n".toList], ⟨[], []⟩⟩
      ⟨[], "\r\n".toList⟩ (by decide)⟩

/-- C3, as the specification states it, fails: the client sends a valid `GET` line and
one header line and then closes.  The third `next_line` call returns the zero-length
line while headers are being read, and `patch_request` returns normally with the
patched request built so far instead of raising a header error. -/
theorem patch_request_truncated_headers :
    parse_request_line "GET http://a/ HTTP/1.1\r\n".toList
      = .ok ("GET / HTTP/1.0\r\n".toList, "a".toList) ∧
    (next_lines 3 ⟨[.data "GET http://a/ HTTP/1.1\r\nHost: a\r\n".toList], []⟩).1
      = [.ok "GET http://a/ HTTP/1.1\r\n".toList, .ok "Host: a\r\n".toList, .ok []] ∧
    patch_request ⟨[.data "GET http://a/ HTTP/1.1\r\nHost: a\r\n".toList], []⟩ [] []
      = some (none, ⟨⟨[], []⟩, "GET / HTTP/1.0\r\nHost: a\r\n".toList, "a".toList⟩) := by
  decide

/-- C3, amended: the client stream is a valid `GET` line `L`, header lines `hs` (none
of them the blank line) and trailing bytes `t` without line feed, and then ends.
`patch_request` returns normally, raising no header error: the patched request is the
patched request line followed by the rewritten header lines and the rewritten `t`,
without a closing blank line. -/
theorem patch_request_end_of_stream (L pl host : Bytes) (hs : List Bytes) (t : Bytes)
    (cs : List Bytes) (n : Nat) (req0 host0 : Bytes)
    (hL : complete_line L) (hget : parse_request_line L = .ok (pl, host))
    (hhs : ∀ h ∈ hs, complete_line h ∧ h ≠ "\r\n".toList) (ht : '\n' ∉ t)
    (hcs : cs.flatten = L ++ hs.flatten ++ t) :
    ∃ p2, patch_request ⟨cs.map .data ++ List.replicate n .eof, []⟩ req0 host0
      = some (none, ⟨p2, pl ++ (hs.map rewrite_header).flatten ++ rewrite_header t, host⟩) := by
  obtain ⟨L0, eL, hL0⟩ := hL
  have e1 : ([] : Bytes) ++ cs.flatten = L0 ++ '\n' :: (hs.flatten ++ t) := by
    rw [hcs, eL]; simp
  obtain ⟨_, cs2, b, _, hrun, _, hb⟩ :=
    next_line_line (List.replicate n .eof) L0 _ hL0 cs [] e1
  rw [← eL] at hrun
  have hpend := pending_after_line (List.replicate n .eof) cs2 b _ hb
  have hlen := length_le_length_flatten hs (fun l hl => complete_line_ne_nil (hhs l hl).1)
  rw [List.length_append] at hpend
  obtain ⟨p2, hloop⟩ :=
    header_loop_truncated n t ht (pending ⟨cs2.map .data ++ List.replicate n .eof, b⟩ + 1) hs hhs
      cs2 b pl hb (by omega)
  exact ⟨p2, patch_request_parts _ _ p2 req0 host0 L pl host _ none hrun hget hloop⟩

theorem patch_request_end_of_stream_witness :
    complete_line "GET http://a/ HTTP/1.1\r\n".toList ∧
    parse_request_line "GET http://a/ HTTP/1.1\r\n".toList
      = .ok ("GET / HTTP/1.0\r\n".toList, "a".toList) ∧
    (∀ h ∈ ["Host: a\r\n".toList], complete_line h ∧ h ≠ "\r\n".toList) ∧
    '\n' ∉ "Connection: keep".toList ∧
    ["GET http://a/ HTTP/1.1\r".toList, "\nHost: a\r\nConnection: keep".toList].flatten
      = "GET http://a/ HTTP/1.1\r\n".toList ++ ["Host: a\r\n".toList].flatten
        ++ "Connection: keep".toList ∧
    ∃ p2, patch_request
        ⟨["GET http://a/ HTTP/1.1\r".toList, "\nHost: a\r\nConnection: keep".toList].map .data
          ++ List.replicate 1 .eof, []⟩ [] []
      = some (none, ⟨p2, "GET / HTTP/1.0\r\n".toList
          ++ (["Host: a\r\n".toList].map rewrite_header).flatten
          ++ rewrite_header "Connection: keep".toList, "a".toList⟩) :=
  have h1 : complete_line "GET http://a/ HTTP/1.1\r\n".toList :=
    ⟨"GET http://a/ HTTP/1.1\r".toList, by decide, by decide⟩
  have h2 : ∀ h ∈ ["Host: a\r\n".toList], complete_line h ∧ h ≠ "\r\n".toList := by
    intro h hh
    rw [List.mem_singleton] at hh
    subst hh
    exact ⟨⟨"Host: a\r".toList, by decide, by decide⟩, by decide⟩
  ⟨h1, by decide, h2, by decide, by decide,
    patch_request_end_of_stream "GET http://a/ HTTP/1.1\r\n".toList "GET / HTTP/1.0\r\n".toList
      "a".toList ["Host: a\r\n".toList] "Connection: keep".toList
      ["GET http://a/ HTTP/1.1\r".toList, "\nHost: a\r\nConnection: keep".toList] 1 [] []
      h1 (by decide) h2 (by decide) (by decide)⟩

/-- C4: the client stream is a valid `GET` line `L` (patched to `pl`), header lines
`hs` (none of them the blank line), the blank line and any bytes `extra`, delivered in
any chunks and followed by any read results.  `patch_request` returns normally with
the patched request `pl`, then the rewritten header lines in order, then the blank
line; the bytes `extra` stay unread in the parser and the request does not depend on
them. -/
theorem patch_request_header_block (L pl host : Bytes) (hs : List Bytes) (extra : Bytes)
    (cs : List Bytes) (rest : ReadEnd) (req0 host0 : Bytes)
    (hL : complete_line L) (hget : parse_request_line L = .ok (pl, host))
    (hhs : ∀ h ∈ hs, complete_line h ∧ h ≠ "\r\n".toList)
    (hcs : cs.flatten = L ++ hs.flatten ++ "\r\n".toList ++ extra) :
    ∃ (cs2 : List Bytes) (b : Bytes), b ++ cs2.flatten = extra ∧
      patch_request ⟨cs.map .data ++ rest, []⟩ req0 host0
        = some (none, ⟨⟨cs2.map .data ++ rest, b⟩,
            pl ++ (hs.map rewrite_header).flatten ++ "\r\n".toList, host⟩) :=
  patch_request_block_run L pl host hs extra cs rest req0 host0 hL hget hhs hcs

theorem patch_request_header_block_witness :
    complete_line "GET http://a/x HTTP/1.1\r\n".toList ∧
    parse_request_line "GET http://a/x HTTP/1.1\r\n".toList
      = .ok ("GET /x HTTP/1.0\r\n".toList, "a".toList) ∧
    (∀ h ∈ ["Connection: keep-alive\r\n".toList, "Host: a\r\n".toList],
      complete_line h ∧ h ≠ "\r\n".toList) ∧
    ["GET http://a/x HTTP/1.1\r\nConn".toList,
        "ection: keep-alive\r\nHost: a\r\n\r\nbo".toList, "dy".toList].flatten
      = "GET http://a/x HTTP/1.1\r\n".toList
        ++ ["Connection: keep-alive\r\n".toList, "Host: a\r\n".toList].flatten
        ++ "\r\n".toList ++ "body".toList ∧
    ∃ (cs2 : List Bytes) (b : Bytes), b ++ cs2.flatten = "body".toList ∧
      patch_request
          ⟨["GET http://a/x HTTP/1.1\r\nConn".toList,
              "ection: keep-alive\r\nHost: a\r\n\r\nbo".toList, "dy".toList].map .data
            ++ [.error], []⟩ [] []
        = some (none, ⟨⟨cs2.map .data ++ [.error], b⟩,
            "GET /x HTTP/1.0\r\n".toList
              ++ (["Connection: keep-alive\r\n".toList, "Host: a\r\n".toList].map
                    rewrite_header).flatten
              ++ "\r\n".toList, "a".toList⟩) :=
  have h1 : complete_line "GET http://a/x HTTP/1.1\r\n".toList :=
    ⟨"GET http://a/x HTTP/1.1\r".toList, by decide, by decide⟩
  have h2 : ∀ h ∈ ["Connection: keep-alive\r\n".toList, "Host: a\r\n".toList],
      complete_line h ∧ h ≠ "\r\n".toList := by
    intro h hh
    rcases List.mem_cons.1 hh with e | hh
    · subst e
      exact ⟨⟨"Connection: keep-alive\r".toList, by decide, by decide⟩, by decide⟩
    · rw [List.mem_singleton] at hh
      subst hh
      exact ⟨⟨"Host: a\r".toList, by decide, by decide⟩, by decide⟩
  ⟨h1, by decide, h2, by decide,
    patch_request_header_block "GET http://a/x HTTP/1.1\r\n".toList "GET /x HTTP/1.0\r\n".toList
      "a".toList ["Connection: keep-alive\r\n".toList, "Host: a\r\n".toList] "body".toList
      ["GET http://a/x HTTP/1.1\r\nConn".toList,
        "ection: keep-alive\r\nHost: a\r\n\r\nbo".toList, "dy".toList] [.error] [] []
      h1 (by decide) h2 (by decide)⟩

/-- C5, the case that the code misses: for the url token `http://example.com`, with a
scheme and without a path, the remainder behind the double slash is `example.com` and
has no slash, yet the host that `patch_request` yields is the whole token
`http://example.com`, the scheme still on it; the path is `/`. -/
theorem split_url_scheme_without_path :
    find_str "http://example.com".toList "//".toList 0 = some 5 ∧
    "http://example.com".toList.drop (5 + 2) = "example.com".toList ∧
    '/' ∉ "example.com".toList ∧
    split_url "http://example.com".toList = ("http://example.com".toList, "/".toList) ∧
    patch_request ⟨[.data "GET http://example.com HTTP/1.1\r\n\r\n".toList], []⟩ [] []
      = some (none, ⟨⟨[], []⟩, "GET / HTTP/1.0\r\n\r\n".toList, "http://example.com".toList⟩) := by
  decide

/-- The two url examples of the specification. -/
theorem split_url_examples :
    split_url "http://example.com:8080/a/b".toList = ("example.com:8080".toList, "/a/b".toList) ∧
    split_url "example.com".toList = ("example.com".toList, "/".toList) := by
  decide

/-- C6, as the specification states it, fails: the client sends a `GET` line, a `Host`
header and the blank line; `patch_request` accepts the request, and the patched
request has neither a `Connection: close` line nor a `Proxy-Connection: close` line. -/
theorem patch_request_adds_no_header :
    patch_request ⟨[.data "GET http://a/ HTTP/1.1\r\nHost: a\r\n\r\n".toList], []⟩ [] []
      = some (none, ⟨⟨[], []⟩, "GET / HTTP/1.0\r\nHost: a\r\n\r\n".toList, "a".toList⟩) ∧
    ¬ ("Connection: close\r\n".toList <:+: "GET / HTTP/1.0\r\nHost: a\r\n\r\n".toList) ∧
    ¬ ("Proxy-Connection: close\r\n".toList <:+: "GET / HTTP/1.0\r\nHost: a\r\n\r\n".toList) := by
  decide

/-- C6, amended: for a client request made of a valid `GET` line, header lines `hs`
and the blank line, `patch_request` accepts the request; every header line of the
client that starts with `Connection` stands in the patched request, at its place among
the header lines, as the line `Connection: close`, and every one that starts with
`Proxy-Connection` as the line `Proxy-Connection: close`, whatever its value; when the
client sent no such header the header lines are forwarded as they are and none is
added. -/
theorem patch_request_connection_close (L pl host : Bytes) (hs : List Bytes) (extra : Bytes)
    (cs : List Bytes) (rest : ReadEnd) (req0 host0 : Bytes)
    (hL : complete_line L) (hget : parse_request_line L = .ok (pl, host))
    (hhs : ∀ h ∈ hs, complete_line h ∧ h ≠ "\r\n".toList)
    (hcs : cs.flatten = L ++ hs.flatten ++ "\r\n".toList ++ extra) :
    ∃ st, patch_request ⟨cs.map .data ++ rest, []⟩ req0 host0 = some (none, st) ∧
      (∀ pre h post, hs = pre ++ h :: post → "Connection".toList <+: h →
        st.patched_req = pl ++ (pre.map rewrite_header).flatten ++ "Connection: close\r\n".toList
          ++ (post.map rewrite_header).flatten ++ "\r\n".toList) ∧
      (∀ pre h post, hs = pre ++ h :: post → "Proxy-Connection".toList <+: h →
        st.patched_req = pl ++ (pre.map rewrite_header).flatten
          ++ "Proxy-Connection: close\r\n".toList
          ++ (post.map rewrite_header).flatten ++ "\r\n".toList) ∧
      ((∀ h ∈ hs, ¬ "Connection".toList <+: h ∧ ¬ "Proxy-Connection".toList <+: h) →
        st.patched_req = pl ++ hs.flatten ++ "\r\n".toList) := by
  obtain ⟨cs2, b, _, hrun⟩ :=
    patch_request_block_run L pl host hs extra cs rest req0 host0 hL hget hhs hcs
  refine ⟨_, hrun, ?_, ?_, ?_⟩
  · intro pre h post e hpre
    have : rewrite_header h = "Connection: close\r\n".toList := by
      rw [rewrite_header, if_pos hpre]
    subst e
    simp [this]
  · intro pre h post e hpre
    have hno : ¬ "Connection".toList <+: h := by
      intro hc
      obtain ⟨u, eu⟩ := hpre
      obtain ⟨v, ev⟩ := hc
      rw [← eu] at ev
      exact absurd ev (by simp)
    have : rewrite_header h = "Proxy-Connection: close\r\n".toList := by
      rw [rewrite_header, if_neg hno, if_pos hpre]
    subst e
    simp [this]
  · intro hnone
    have : hs.map rewrite_header = hs := by
      conv_rhs => rw [← List.map_id hs]
      apply List.map_congr_left
      intro h hh
      rw [rewrite_header, if_neg (hnone h hh).1, if_neg (hnone h hh).2]
      rfl
    show pl ++ (hs.map rewrite_header).flatten ++ "\r\n".toList = _
    rw [this]

theorem patch_request_connection_close_witness :
    complete_line "GET http://a/x HTTP/1.1\r\n".toList ∧
    parse_request_line "GET http://a/x HTTP/1.1\r\n".toList
      = .ok ("GET /x HTTP/1.0\r\n".toList, "a".toList) ∧
    (∀ h ∈ ["Host: a\r\n".toList, "Proxy-Connection: keep-alive\r\n".toList],
      complete_line h ∧ h ≠ "\r\n".toList) ∧
    ["GET http://a/x HTTP/1.1\r\nHost: a\r\nProxy-Connection: keep-alive\r\n\r\n".toList].flatten
      = "GET http://a/x HTTP/1.1\r\n".toList
        ++ ["Host: a\r\n".toList, "Proxy-Connection: keep-alive\r\n".toList].flatten
        ++ "\r\n".toList ++ [] ∧
    ∃ st, patch_request
        ⟨["GET http://a/x HTTP/1.1\r\nHost: a\r\nProxy-Connection: keep-alive\r\n\r\n".toList].map
          .data ++ [], []⟩ [] [] = some (none, st) ∧
      st.patched_req = "GET /x HTTP/1.0\r\n".toList
          ++ (["Host: a\r\n".toList].map rewrite_header).flatten
          ++ "Proxy-Connection: close\r\n".toList
          ++ (([] : List Bytes).map rewrite_header).flatten ++ "\r\n".toList :=
  have h1 : complete_line "GET http://a/x HTTP/1.1\r\n".toList :=
    ⟨"GET http://a/x HTTP/1.1\r".toList, by decide, by decide⟩
  have h2 : ∀ h ∈ ["Host: a\r\n".toList, "Proxy-Connection: keep-alive\r\n".toList],
      complete_line h ∧ h ≠ "\r\n".toList := by
    intro h hh
    rcases List.mem_cons.1 hh with e | hh
    · subst e
      exact ⟨⟨"Host: a\r".toList, by decide, by decide⟩, by decide⟩
    · rw [List.mem_singleton] at hh
      subst hh
      exact ⟨⟨"Proxy-Connection: keep-alive\r".toList, by decide, by decide⟩, by decide⟩
  ⟨h1, by decide, h2, by decide,
    match patch_request_connection_close "GET http://a/x HTTP/1.1\r\n".toList
      "GET /x HTTP/1.0\r\n".toList "a".toList
      ["Host: a\r\n".toList, "Proxy-Connection: keep-alive\r\n".toList] []
      ["GET http://a/x HTTP/1.1\r\nHost: a\r\nProxy-Connection: keep-alive\r\n\r\n".toList] []
      [] [] h1 (by decide) h2 (by decide) with
    | ⟨st, hst, _, hproxy, _⟩ =>
      ⟨st, hst, hproxy ["Host: a\r\n".toList] "Proxy-Connection: keep-alive\r\n".toList [] rfl
        (by decide)⟩⟩

/-! ## Claim on the worker count -/

/-- C10, the case that the code misses: for the least `int` as thread-count argument
the subtraction `atoi(argv[2]) - 1` leaves the range of `int`; with the wrap-around of
two's complement `thread_num` becomes 2147483647, is cut down to 256, and 257 workers
are started, while the argument clamped to 1 .. 257 is 1. -/
theorem main_workers_least_int :
    wrap_int (-2147483648 - 1) = 2147483647 ∧ thread_num 3 (-2147483648) = 256 ∧
    (main_workers 3 (-2147483648)).map List.length = some 257 ∧
    (clamp 1 257 (-2147483648)).toNat = 1 := by
  refine ⟨by decide, by decide, ?_, by decide⟩
  have h : thread_num 3 (-2147483648) = 256 := by decide
  simp [main_workers, h, create_threadpool]

/-- Without the thread-count argument only the main worker is started. -/
theorem main_workers_default (n : Int) : main_workers 2 n = some [0] := by
  simp [main_workers, thread_num, create_threadpool]

end ProxyLab
